import Mathlib

/-!
Verification of the Othello game core: board logic (gamelogical.service.ts)
and the minimax AI (game-ai.service.ts), embedded shallowly.
-/

set_option linter.unusedVariables false

namespace Othello

/-- Cell contents of the TS board. The string union type
Player = 'player' | 'ia' | '' is modelled as a three-valued inductive,
with blank standing for the empty string (an empty cell). -/
inductive Player where
  | player
  | ia
  | blank
deriving DecidableEq

/-- Board = Player[][] : a list of rows. -/
abbrev Board := List (List Player)

/-- JS array read a[i] : undefined (modelled as none) outside [0, length). -/
def jsGet {α : Type} (l : List α) (i : Int) : Option α :=
  if 0 ≤ i then l.get? i.toNat else none

/-- Two-level read board[r][c]; none when the cell does not exist. -/
def cellAt (b : Board) (r c : Int) : Option Player :=
  (jsGet b r).bind (fun row => jsGet row c)

/-- JS write board[r][c] = p. Every write performed by the embedded code
targets a cell that exists, where List.set agrees with the JS assignment
(out-of-range set is a no-op here and never reached). -/
def setCell (b : Board) (r c : Int) (p : Player) : Board :=
  if 0 ≤ r ∧ 0 ≤ c then
    b.set r.toNat (((b.get? r.toNat).getD []).set c.toNat p)
  else b

/-- The ternary p === 'player' ? 'ia' : 'player' used by both services
(the AI service names it opponent). -/
def opponentOf (p : Player) : Player :=
  if p = Player.player then Player.ia else Player.player

/-- The 8 ray directions, in source order. -/
def directions : List (Int × Int) :=
  [(-1,-1),(-1,0),(-1,1),(0,-1),(0,1),(1,-1),(1,0),(1,1)]

/-- inBounds(x, y) against a square of side n. -/
def inBounds (n : Nat) (x y : Int) : Bool :=
  decide (0 ≤ x) && decide (x < (n : Int)) && decide (0 ≤ y) && decide (y < (n : Int))

/-- One direction of the while-loop shared by the two getFlippableDiscs
implementations: walk from (r, c) in direction (dx, dy), accumulating
opponent discs in temp; deliver the accumulated run when a disc of the
mover terminates it, nothing when the ray leaves the board or meets any
other cell. The fuel argument only bounds the loop; the walk always exits
within n+1 steps because one coordinate moves monotonically through
[0, n). -/
def rayWalk (b : Board) (n : Nat) (pl opp : Player) (dx dy : Int) :
    Nat → Int → Int → List (Int × Int) → List (Int × Int)
  | 0, _, _, _ => []
  | fuel+1, r, c, temp =>
    if inBounds n r c then
      if cellAt b r c = some opp then
        rayWalk b n pl opp dx dy fuel (r + dx) (c + dy) (temp ++ [(r, c)])
      else if cellAt b r c = some pl then temp
      else []
    else []

namespace GameLogic

/-- The mutable fields of GameLogicService. -/
structure GameState where
  board : Board
  size : Nat
  currentPlayer : Player
  lastFlipped : List (Int × Int × Player × Player)
deriving DecidableEq

/-- getFlippableDiscs(row, col, player) of GameLogicService: union of the
8 directional runs, in direction order. -/
def getFlippableDiscs (s : GameState) (row col : Int) (p : Player) : List (Int × Int) :=
  directions.foldl
    (fun acc d =>
      acc ++ rayWalk s.board s.size p (opponentOf p) d.1 d.2 (s.size + 1) (row + d.1) (col + d.2) [])
    []

/-- isValidMove(row, col, player). Reading this.board[row] with row outside
[0, N) is a JS TypeError, modelled as none; a defined non-empty cell value
(including the undefined read of an out-of-range column) yields false. -/
def isValidMove (s : GameState) (row col : Int) (p : Player) : Option Bool :=
  match jsGet s.board row with
  | none => none
  | some rowArr =>
    if jsGet rowArr col ≠ some Player.blank then some false
    else some (decide (0 < (getFlippableDiscs s row col p).length))

/-- getValidMoves(player): row-major scan of the N x N grid. -/
def getValidMoves (s : GameState) (p : Player) : List (Int × Int) :=
  (List.range s.size).flatMap (fun r =>
    (List.range s.size).filterMap (fun c =>
      if isValidMove s (r : Int) (c : Int) p = some true then some ((r : Int), (c : Int))
      else none))

/-- playMove(row, col): validity check for the current player, flips, the
placement, the animation buffer, and the turn change. none models the
TypeError thrown when row is outside [0, N). -/
def playMove (s : GameState) (row col : Int) : Option (Bool × GameState) :=
  match isValidMove s row col s.currentPlayer with
  | none => none
  | some false => some (false, s)
  | some true =>
    let toP := s.currentPlayer
    let flippedDiscs := getFlippableDiscs s row col s.currentPlayer
    let b1 := flippedDiscs.foldl (fun b f => setCell b f.1 f.2 toP) s.board
    let b2 := setCell b1 row col toP
    let lf := flippedDiscs.map (fun f => (f.1, f.2, opponentOf toP, toP))
      ++ [(row, col, Player.blank, toP)]
    some (true,
      { board := b2, size := s.size, currentPlayer := opponentOf s.currentPlayer,
        lastFlipped := lf })

/-- getScores(): tally of player and ia discs over the rows. -/
def getScores (s : GameState) : Nat × Nat :=
  s.board.foldl
    (fun acc row => row.foldl
      (fun a cell =>
        if cell = Player.player then (a.1 + 1, a.2)
        else if cell = Player.ia then (a.1, a.2 + 1)
        else a) acc)
    (0, 0)

/-- The empty size x size grid built by Array.from in initBoard. -/
def emptyGrid (size : Nat) : Board :=
  List.replicate size (List.replicate size Player.blank)

/-- initBoard(size), run statement by statement against a prior service
state. The Bool records normal completion: with mid = size / 2, the four
centre placements read this.board[mid - 1] or this.board[mid], which for an
odd size (fractional mid) or size 0 (index -1) is undefined, so the first
placement throws a TypeError -- after this.size and the empty this.board
have already been assigned. currentPlayer and lastFlipped are reset only on
the successful path. -/
def initBoardRun (size : Nat) (s : GameState) : GameState × Bool :=
  let s1 : GameState := { s with size := size, board := emptyGrid size }
  if size % 2 = 1 ∨ size = 0 then (s1, false)
  else
    let mid : Int := (size : Int) / 2
    let b1 := setCell s1.board (mid - 1) (mid - 1) Player.player
    let b2 := setCell b1 mid mid Player.player
    let b3 := setCell b2 (mid - 1) mid Player.ia
    let b4 := setCell b3 mid (mid - 1) Player.ia
    ({ board := b4, size := size, currentPlayer := Player.player, lastFlipped := [] }, true)

/-- The state after the constructor runs initBoard() with the default
size 8. -/
def startState : GameState :=
  (initBoardRun 8 ⟨[], 8, Player.player, []⟩).1

/-- A size-4 start state used in concrete witnesses. -/
def startState4 : GameState :=
  (initBoardRun 4 ⟨[], 8, Player.player, []⟩).1

/-- Consistency of the service fields: the board really is size x size. -/
def WF (s : GameState) : Prop :=
  s.board.length = s.size ∧ ∀ row ∈ s.board, row.length = s.size

end GameLogic

/-- A cell that exists and holds a disc. -/
def occupied (b : Board) (r c : Int) : Prop :=
  ∃ v, cellAt b r c = some v ∧ v ≠ Player.blank

/-- Number of discs in one row. -/
def rowOcc (row : List Player) : Nat :=
  row.countP (fun x => decide (x ≠ Player.blank))

/-- Total number of occupied cells of a board. -/
def occCount (b : Board) : Nat :=
  (b.map rowOcc).sum

namespace GameAI

/-- A move {row, col} returned by the AI service. -/
abbrev Move := Int × Int

/-- The four AI difficulty levels. -/
inductive Difficulty where
  | Facile
  | Moyen
  | Difficile
  | Expert
deriving DecidableEq

/-- depthByDifficulty. -/
def depthByDifficulty : Difficulty → Nat
  | .Facile => 1
  | .Moyen => 2
  | .Difficile => 3
  | .Expert => 5

/-- randomnessByDifficulty. -/
def randomnessByDifficulty : Difficulty → Rat
  | .Facile => 9 / 10
  | .Moyen => 3 / 10
  | .Difficile => 8 / 100
  | .Expert => 0

/-- getFlippableDiscs(board, row, col, player) of GameAIService: returns []
at once on a non-empty target cell, then walks the 8 rays bounded by
n = board.length. -/
def getFlippableDiscs (b : Board) (row col : Int) (p : Player) : List (Int × Int) :=
  if cellAt b row col ≠ some Player.blank then []
  else
    directions.foldl
      (fun acc d =>
        acc ++ rayWalk b b.length p (opponentOf p) d.1 d.2 (b.length + 1) (row + d.1) (col + d.2) [])
      []

/-- getValidMoves(board, player) of GameAIService: empty cells whose
capture list is non-empty, in row-major order. -/
def getValidMoves (b : Board) (p : Player) : List Move :=
  (List.range b.length).flatMap (fun r =>
    (List.range b.length).filterMap (fun c =>
      if cellAt b (r : Int) (c : Int) = some Player.blank
          ∧ 0 < (getFlippableDiscs b (r : Int) (c : Int) p).length
      then some ((r : Int), (c : Int))
      else none))

/-- applyMove(board, row, col, player): capture set of the input board
applied to a copy, then the placement. Value-level result of the TS
copy-then-mutate (see the heap model below for the aliasing claim). -/
def applyMove (b : Board) (row col : Int) (p : Player) : Board :=
  let flips := getFlippableDiscs b row col p
  let next := flips.foldl (fun nb f => setCell nb f.1 f.2 p) b
  setCell next row col p

/-- isTerminal(board): neither side has a valid move. -/
def isTerminal (b : Board) : Bool :=
  decide (getValidMoves b Player.player = []) && decide (getValidMoves b Player.ia = [])

/-- Row-major list of the n x n grid coordinates scanned by the evaluate
counting loop (for r of range n, for c of range n). -/
def grid (n : Nat) : List (Nat × Nat) :=
  (List.range n).flatMap (fun r => (List.range n).map (fun c => (r, c)))

/-- The cornerCoords list of evaluate. -/
def cornerCells (n : Nat) : List (Int × Int) :=
  [(0, 0), (0, (n : Int) - 1), ((n : Int) - 1, 0), ((n : Int) - 1, (n : Int) - 1)]

/-- The non-corner outer-ring cells visited by the edge loop of evaluate
(for i from 1 to n-2, the cells (0,i), (n-1,i), (i,0), (i,n-1)). -/
def edgeCells (n : Nat) : List (Int × Int) :=
  (List.range' 1 (n - 2)).flatMap (fun i =>
    [((0 : Int), (i : Int)), ((n : Int) - 1, (i : Int)), ((i : Int), (0 : Int)),
      ((i : Int), (n : Int) - 1)])

/-- The X-square list of evaluate: the diagonal neighbours of the four
corners. -/
def xCells (n : Nat) : List (Int × Int) :=
  [(1, 1), (1, (n : Int) - 2), ((n : Int) - 2, 1), ((n : Int) - 2, (n : Int) - 2)]

/-- evaluate(board, root): the heuristic score. All JS number arithmetic
here is exact integer arithmetic (the only division, 50 * cornerScore / 30,
divides a multiple of 1500 by 30), so Int models it exactly;
endgameFactor 2.0 / 1.0 is the integer 2 / 1. -/
def evaluate (b : Board) (root : Player) : Int :=
  let opp := opponentOf root
  let n := b.length
  let counts : Int × Int × Int :=
    (grid n).foldl
      (fun a rc =>
        if cellAt b (rc.1 : Int) (rc.2 : Int) = some root then (a.1 + 1, a.2.1, a.2.2)
        else if cellAt b (rc.1 : Int) (rc.2 : Int) = some opp then (a.1, a.2.1 + 1, a.2.2)
        else (a.1, a.2.1, a.2.2 + 1))
      (0, 0, 0)
  let rootCount := counts.1
  let oppCount := counts.2.1
  let empties := counts.2.2
  let pieceDiff := rootCount - oppCount
  let mobility : Int := ((getValidMoves b root).length : Int) - ((getValidMoves b opp).length : Int)
  let cornerScore : Int :=
    (cornerCells n).foldl
      (fun sc rc =>
        if cellAt b rc.1 rc.2 = some root then sc + 30
        else if cellAt b rc.1 rc.2 = some opp then sc - 30
        else sc) 0
  let edgeScore : Int :=
    (edgeCells n).foldl
      (fun sc rc =>
        if cellAt b rc.1 rc.2 = some root then sc + 4
        else if cellAt b rc.1 rc.2 = some opp then sc - 4
        else sc) 0
  let xPenalty : Int :=
    (xCells n).foldl
      (fun sc rc =>
        if cellAt b rc.1 rc.2 = some root then sc - 8
        else if cellAt b rc.1 rc.2 = some opp then sc + 8
        else sc) 0
  let endgameFactor : Int := if empties ≤ 12 then 2 else 1
  10 * mobility + 5 * edgeScore + 50 * cornerScore / 30
    + 2 * endgameFactor * pieceDiff + (-1) * xPenalty

/-- The extended score domain: a JS number together with the -Infinity and
Infinity sentinels used by the search. Every finite value produced is an
evaluate result, i.e. an integer. -/
abbrev E := WithBot (WithTop Int)

/-- A finite score. -/
def toE (z : Int) : E := ((z : WithTop Int) : E)

/-- evaluate lifted into the extended domain. -/
def evE (b : Board) (root : Player) : E := toE (evaluate b root)

/-- The maximizing for-loop of minimax: value and alpha updates plus the
break once alpha >= beta. The recursive child evaluation is abstracted as
child, which receives the alpha current at its call site. -/
def maxLoop (child : Move → E → E) (beta : E) : List Move → E → E → E
  | [], value, _ => value
  | m :: rest, value, alpha =>
    let v := max value (child m alpha)
    let a := max alpha v
    if beta ≤ a then v else maxLoop child beta rest v a

/-- The minimizing for-loop of minimax: value and beta updates plus the
break once alpha >= beta. -/
def minLoop (child : Move → E → E) (alpha : E) : List Move → E → E → E
  | [], value, _ => value
  | m :: rest, value, beta =>
    let v := min value (child m beta)
    let b2 := min beta v
    if b2 ≤ alpha then v else minLoop child alpha rest v b2

/-- minimax(board, depth, alpha, beta, rootPlayer, toMove), with a fuel
parameter that makes the pass recursion (same depth, opponent to move)
structural. Each recursive call strictly decreases
2*depth + (1 if the side to move has no moves else 0), so fuel
2*depth + 2 always suffices and the function is fuel-irrelevant above
that bound (minimaxF_fuel below); the fuel-0 fallback is never reached. -/
def minimaxF : Nat → Board → Nat → E → E → Player → Player → E
  | 0, b, _, _, _, root, _ => evE b root
  | fuel+1, b, depth, alpha, beta, root, toMove =>
    if depth = 0 ∨ isTerminal b then evE b root
    else
      let moves := getValidMoves b toMove
      if moves = [] then
        if getValidMoves b (opponentOf toMove) = [] then evE b root
        else minimaxF fuel b depth alpha beta root (opponentOf toMove)
      else if toMove = root then
        maxLoop
          (fun m a =>
            minimaxF fuel (applyMove b m.1 m.2 toMove) (depth - 1) a beta root
              (opponentOf toMove))
          beta moves ⊥ alpha
      else
        minLoop
          (fun m bb =>
            minimaxF fuel (applyMove b m.1 m.2 toMove) (depth - 1) alpha bb root
              (opponentOf toMove))
          alpha moves ⊤ beta

/-- minimax with the canonical sufficient fuel. -/
def minimax (b : Board) (depth : Nat) (alpha beta : E) (root toMove : Player) : E :=
  minimaxF (2 * depth + 2) b depth alpha beta root toMove

/-- The root for-loop of minimaxDecision: strictly-greater first-seen
update of (bestScore, bestMove), alpha update, break on beta <= alpha
with beta = Infinity. -/
def rootLoop (child : Move → E → E) : List Move → E → Option Move → E → Option Move
  | [], _, best, _ => best
  | m :: rest, bestScore, best, alpha =>
    let score := child m alpha
    let bs2 := if bestScore < score then score else bestScore
    let best2 := if bestScore < score then some m else best
    let a2 := max alpha bs2
    if (⊤ : E) ≤ a2 then best2 else rootLoop child rest bs2 best2 a2

/-- minimaxDecision(board, player, depth). -/
def minimaxDecision (b : Board) (p : Player) (depth : Nat) : Option Move :=
  let moves := getValidMoves b p
  if moves = [] then none
  else
    rootLoop
      (fun m a => minimax (applyMove b m.1 m.2 p) (depth - 1) a ⊤ p (opponentOf p))
      moves ⊥ none ⊥

/-- Modelled from the spec: the maximizing loop of plain minimax with no
pruning, same enumeration order. -/
def maxLoopP (child : Move → E) : List Move → E → E
  | [], value => value
  | m :: rest, value => maxLoopP child rest (max value (child m))

/-- Modelled from the spec: the minimizing loop of plain minimax with no
pruning, same enumeration order. -/
def minLoopP (child : Move → E) : List Move → E → E
  | [], value => value
  | m :: rest, value => minLoopP child rest (min value (child m))

/-- Modelled from the spec: plain minimax with no pruning over the same
move enumeration order -- identical to minimaxF with the alpha/beta
threading and the cutoffs removed. -/
def minimaxPlainF : Nat → Board → Nat → Player → Player → E
  | 0, b, _, root, _ => evE b root
  | fuel+1, b, depth, root, toMove =>
    if depth = 0 ∨ isTerminal b then evE b root
    else
      let moves := getValidMoves b toMove
      if moves = [] then
        if getValidMoves b (opponentOf toMove) = [] then evE b root
        else minimaxPlainF fuel b depth root (opponentOf toMove)
      else if toMove = root then
        maxLoopP
          (fun m => minimaxPlainF fuel (applyMove b m.1 m.2 toMove) (depth - 1) root
            (opponentOf toMove))
          moves ⊥
      else
        minLoopP
          (fun m => minimaxPlainF fuel (applyMove b m.1 m.2 toMove) (depth - 1) root
            (opponentOf toMove))
          moves ⊤

/-- Plain minimax with the canonical sufficient fuel. -/
def minimaxPlain (b : Board) (depth : Nat) (root toMove : Player) : E :=
  minimaxPlainF (2 * depth + 2) b depth root toMove

/-- Modelled from the spec: the root selection of plain minimax, with the
same strictly-greater first-seen tie-break. -/
def rootLoopP (child : Move → E) : List Move → E → Option Move → Option Move
  | [], _, best => best
  | m :: rest, bestScore, best =>
    if bestScore < child m then rootLoopP child rest (child m) (some m)
    else rootLoopP child rest bestScore best

/-- Modelled from the spec: the pruning-free move decision that
minimaxDecision is claimed to refine. -/
def minimaxDecisionPlain (b : Board) (p : Player) (depth : Nat) : Option Move :=
  let moves := getValidMoves b p
  if moves = [] then none
  else
    rootLoopP (fun m => minimaxPlain (applyMove b m.1 m.2 p) (depth - 1) p (opponentOf p))
      moves ⊥ none

/-- randomChoice(moves): moves[floor(random * length)]. -/
def randomChoice (moves : List Move) (r : Rat) : Option Move :=
  jsGet moves ⌊r * (moves.length : Rat)⌋

/-- getBestImmediateMove: first-seen maximizer of the immediate flip
count, starting from best = moves[0] and bestFlips = -Infinity. -/
def getBestImmediateMove (b : Board) (moves : List Move) (p : Player) : Option Move :=
  match moves with
  | [] => none
  | m0 :: _ =>
    some ((moves.foldl
      (fun (acc : Move × E) m =>
        let flips : E := toE ((getFlippableDiscs b m.1 m.2 p).length : Int)
        if acc.2 < flips then (m, flips) else acc)
      (m0, (⊥ : E))).1)

/-- choiceAmongTopMoves: score every move by evaluate of its child
position, sort descending (stable, like the JS engine sort), keep the
top clamp(k) moves and pick randomly among them. -/
def choiceAmongTopMoves (b : Board) (moves : List Move) (p : Player) (k : Nat) (r : Rat) :
    Option Move :=
  let evaluated := moves.map (fun m => (m, evaluate (applyMove b m.1 m.2 p) p))
  let sorted := evaluated.mergeSort (fun x y => decide (y.2 ≤ x.2))
  let top := (sorted.take (max 1 (min k evaluated.length))).map (fun e => e.1)
  randomChoice top r

/-- chooseMove(board, player, difficulty). The ambient Math.random()
source is modelled as a stream rng of draws in call order: rng 0 is the
draw taken first (rand), rng 1 the draw consumed next by whichever branch
draws again (a randomChoice pick, Moyen's independent 80% draw, or
Difficile's top-k pick). -/
def chooseMove (rng : Nat → Rat) (b : Board) (p : Player) (difficulty : Difficulty) :
    Option Move :=
  let moves := getValidMoves b p
  if moves = [] then none
  else
    let rand := rng 0
    let randProb := randomnessByDifficulty difficulty
    let depth := depthByDifficulty difficulty
    match difficulty with
    | .Facile =>
      if rand < randProb then randomChoice moves (rng 1)
      else getBestImmediateMove b moves p
    | .Moyen =>
      if rand < randProb then randomChoice moves (rng 1)
      else if rng 1 < 8 / 10 then getBestImmediateMove b moves p
      else minimaxDecision b p depth
    | .Difficile =>
      if rand < randProb then choiceAmongTopMoves b moves p 3 (rng 1)
      else minimaxDecision b p depth
    | .Expert => minimaxDecision b p depth

/-- Heap of row arrays: JS row objects as addressed storage. -/
structure Heap where
  rows : List (List Player)
deriving DecidableEq

/-- A board object: a JS array of references to row arrays on the heap. -/
structure HBoard where
  refs : List Nat
deriving DecidableEq

/-- Dereference one row. -/
def readRow (h : Heap) (a : Nat) : Option (List Player) := h.rows.get? a

/-- Read board[r][c] through the references. -/
def hCellAt (h : Heap) (hb : HBoard) (r c : Int) : Option Player :=
  (jsGet hb.refs r).bind (fun a => (readRow h a).bind (fun row => jsGet row c))

/-- The board value read through the heap. -/
def hToBoard (h : Heap) (hb : HBoard) : Board :=
  hb.refs.map (fun a => (readRow h a).getD [])

/-- Write board[r][c] = p through the references (in-place row update). -/
def hWrite (h : Heap) (hb : HBoard) (r c : Int) (p : Player) : Heap :=
  match jsGet hb.refs r with
  | none => h
  | some a =>
    if 0 ≤ c then ⟨h.rows.set a (((h.rows.get? a).getD []).set c.toNat p)⟩ else h

/-- applyMove with its allocations explicit: board.map(r => r.slice())
allocates fresh copies of every row at the end of the heap and next
references those copies; the capture set is computed from the original
board; the flip loop and the placement write through next's references. -/
def applyMoveH (h : Heap) (hb : HBoard) (row col : Int) (p : Player) : Heap × HBoard :=
  let contents := hb.refs.map (fun a => (readRow h a).getD [])
  let base := h.rows.length
  let h1 : Heap := ⟨h.rows ++ contents⟩
  let next : HBoard := ⟨(List.range contents.length).map (fun i => i + base)⟩
  let flips := getFlippableDiscs (hToBoard h hb) row col p
  let h2 := flips.foldl (fun hh f => hWrite hh next f.1 f.2 p) h1
  let h3 := hWrite h2 next row col p
  (h3, next)

/-- Number of listed cells holding the given value. -/
def countOn (b : Board) (cells : List (Int × Int)) (p : Player) : Nat :=
  cells.countP (fun rc => decide (cellAt b rc.1 rc.2 = some p))

/-- Number of grid cells holding the given value. -/
def countGrid (b : Board) (p : Player) : Nat :=
  (grid b.length).countP (fun rc => decide (cellAt b (rc.1 : Int) (rc.2 : Int) = some p))

/-- The claim's mobility term: legal-move-count difference. -/
def specMobility (b : Board) (p : Player) : Int :=
  ((getValidMoves b p).length : Int) - ((getValidMoves b (opponentOf p)).length : Int)

/-- The claim's pieceDiff term: disc-count difference. -/
def specPieceDiff (b : Board) (p : Player) : Int :=
  (countGrid b p : Int) - (countGrid b (opponentOf p) : Int)

/-- The claim's cornerScore term: +30 per perspective corner, -30 per
opponent corner. -/
def specCornerScore (b : Board) (p : Player) : Int :=
  30 * (countOn b (cornerCells b.length) p : Int)
    - 30 * (countOn b (cornerCells b.length) (opponentOf p) : Int)

/-- The claim's edgeScore term: +4 / -4 per non-corner outer-ring cell. -/
def specEdgeScore (b : Board) (p : Player) : Int :=
  4 * (countOn b (edgeCells b.length) p : Int)
    - 4 * (countOn b (edgeCells b.length) (opponentOf p) : Int)

/-- The claim's xPenalty term: -8 per perspective X-square, +8 per
opponent X-square. -/
def specXPenalty (b : Board) (p : Player) : Int :=
  -8 * (countOn b (xCells b.length) p : Int)
    + 8 * (countOn b (xCells b.length) (opponentOf p) : Int)

/-- The claim's empty-cell count. -/
def specEmpties (b : Board) : Nat :=
  countGrid b Player.blank

/-- The claim's endgameFactor: 2 when at most 12 empties, else 1 (the JS
2.0 / 1.0 are exact). -/
def specEndgameFactor (b : Board) : Int :=
  if specEmpties b ≤ 12 then 2 else 1

/-- Square-board well-formedness used by the evaluate claim. -/
def SquareBoard (b : Board) : Prop :=
  ∀ row ∈ b, row.length = b.length

/-- The termination measure of the search recursion: passes keep depth but
flip the no-move bit, moves decrease depth. -/
def muNode (b : Board) (depth : Nat) (toMove : Player) : Nat :=
  2 * depth + (if getValidMoves b toMove = [] then 1 else 0)

/-- A finite extended score. -/
def isFin (x : E) : Prop := ∃ z : Int, x = toE z

end GameAI

end Othello

namespace Othello

/-- Reading a JS index that exists. -/
lemma jsGet_of_lt {α : Type} {l : List α} {i : Int} (h0 : 0 ≤ i) (h1 : i < (l.length : Int)) :
    ∃ x, jsGet l i = some x := by
  unfold jsGet
  rw [if_pos h0]
  have hlt : i.toNat < l.length := by omega
  exact ⟨l.get ⟨i.toNat, hlt⟩, List.get?_eq_get hlt⟩

/-- Reading a JS index that does not exist. -/
lemma jsGet_none {α : Type} {l : List α} {i : Int} (h : i < 0 ∨ (l.length : Int) ≤ i) :
    jsGet l i = none := by
  unfold jsGet
  rcases h with h | h
  · rw [if_neg (by omega)]
  · rw [if_pos (by omega)]
    exact List.get?_eq_none.mpr (by omega)

/-- A successful JS read yields a member of the list. -/
lemma jsGet_mem {α : Type} {l : List α} {i : Int} {x : α} (h : jsGet l i = some x) : x ∈ l := by
  unfold jsGet at h
  split at h
  · exact List.get?_mem h
  · cases h

namespace GameLogic

/-- Sanity: the canonical size-8 start position has exactly the four
legal replies listed in the spec, in row-major order. -/
theorem startState_validMoves :
    getValidMoves startState Player.player = [(2, 4), (3, 5), (4, 2), (5, 3)] := by decide

/-- Characterisation of a positive validity check. -/
lemma isValidMove_some_true {s : GameState} {row col : Int} {p : Player} :
    isValidMove s row col p = some true ↔
      cellAt s.board row col = some Player.blank ∧ getFlippableDiscs s row col p ≠ [] := by
  unfold isValidMove
  cases hjs : jsGet s.board row with
  | none => simp [cellAt, hjs]
  | some rowArr =>
    by_cases hc : jsGet rowArr col = some Player.blank
    · simp [cellAt, hjs, hc, List.length_pos]
    · simp [cellAt, hjs, hc]

/-- Members of getValidMoves pass the validity check. -/
lemma mem_getValidMoves {s : GameState} {p : Player} {r c : Int}
    (h : (r, c) ∈ getValidMoves s p) : isValidMove s r c p = some true := by
  unfold getValidMoves at h
  simp only [List.mem_flatMap, List.mem_filterMap, List.mem_range] at h
  obtain ⟨rn, hrn, cn, hcn, hif⟩ := h
  split at hif
  · next hvalid =>
    obtain ⟨h1, h2⟩ := Prod.mk.injEq .. ▸ Option.some.injEq .. ▸ hif
    rw [← h1, ← h2]
    exact hvalid
  · cases hif

/-- A validated move makes playMove succeed. -/
lemma playMove_of_isValidMove_true {s : GameState} {row col : Int}
    (h : isValidMove s row col s.currentPlayer = some true) :
    ∃ s2, playMove s row col = some (true, s2) := by
  simp only [playMove, h]
  exact ⟨_, rfl⟩

/-- C1: for every board and side, every move returned by getValidMoves is
an empty cell whose getFlippableDiscs capture set is non-empty, and
playMove of any such returned move for the current player succeeds
(returns true). -/
theorem C1_getValidMoves_sound_playable (s : GameState) (p : Player) (r c : Int)
    (hmem : (r, c) ∈ getValidMoves s p) :
    cellAt s.board r c = some Player.blank ∧
      getFlippableDiscs s r c p ≠ [] ∧
      (p = s.currentPlayer → ∃ s2, playMove s r c = some (true, s2)) := by
  have hv := mem_getValidMoves hmem
  have hv2 := isValidMove_some_true.mp hv
  refine ⟨hv2.1, hv2.2, fun hp => playMove_of_isValidMove_true ?_⟩
  rw [hp] at hv
  exact hv

/-- Witness for C1 at the size-4 start position and its first legal
move (0, 2). -/
theorem C1_witness :
    ((0, 2) : Int × Int) ∈ getValidMoves startState4 Player.player ∧
      (cellAt startState4.board 0 2 = some Player.blank ∧
        getFlippableDiscs startState4 0 2 Player.player ≠ [] ∧
        (Player.player = startState4.currentPlayer →
          ∃ s2, playMove startState4 0 2 = some (true, s2))) :=
  ⟨by decide, C1_getValidMoves_sound_playable startState4 Player.player 0 2 (by decide)⟩

/-- C5: inside the board, a move onto an occupied cell or with an empty
capture set makes playMove return false and leave the whole service state
(board, current player, animation buffer) unchanged. -/
theorem C5_playMove_failure_atomic (s : GameState) (row col : Int) (hwf : WF s)
    (hr0 : 0 ≤ row) (hr1 : row < (s.size : Int)) (hc0 : 0 ≤ col) (hc1 : col < (s.size : Int))
    (h : cellAt s.board row col ≠ some Player.blank ∨
      getFlippableDiscs s row col s.currentPlayer = []) :
    playMove s row col = some (false, s) := by
  have hblen : (s.board.length : Int) = (s.size : Int) := by
    exact_mod_cast hwf.1
  obtain ⟨rowArr, hrow⟩ := @jsGet_of_lt _ s.board row hr0 (by omega)
  have hrlen : rowArr.length = s.size := hwf.2 rowArr (jsGet_mem hrow)
  obtain ⟨v, hcol⟩ := @jsGet_of_lt _ rowArr col hc0 (by rw [hrlen]; omega)
  have hcell : cellAt s.board row col = some v := by
    unfold cellAt
    rw [hrow]
    exact hcol
  have hvalid : isValidMove s row col s.currentPlayer = some false := by
    simp only [isValidMove, hrow]
    by_cases hb : v = Player.blank
    · rcases h with h | h
      · exact absurd (hb ▸ hcell) h
      · rw [if_neg (by rw [hcol, hb]; exact fun hx => hx rfl), h]
        simp
    · rw [if_pos (by rw [hcol]; simp [hb])]
  simp only [playMove, hvalid]

/-- Witness for C5: playing the occupied centre cell (1, 1) of the size-4
start position fails and changes nothing. -/
theorem C5_witness :
    WF startState4 ∧
      (cellAt startState4.board 1 1 ≠ some Player.blank ∨
        getFlippableDiscs startState4 1 1 startState4.currentPlayer = []) ∧
      playMove startState4 1 1 = some (false, startState4) :=
  ⟨⟨by decide, by decide⟩, Or.inl (by decide),
    C5_playMove_failure_atomic startState4 1 1 ⟨by decide, by decide⟩ (by decide) (by decide)
      (by decide) (by decide) (Or.inl (by decide))⟩

/-- C9 (amended): a row index outside [0, N) makes isValidMove and
playMove throw a TypeError (modelled as none); a column index outside
[0, N) with an in-range row is silently treated as an invalid move
(false, state unchanged). No dedicated OutOfBounds error exists. -/
theorem C9_amended_out_of_bounds (s : GameState) (row col : Int) (p : Player) (hwf : WF s) :
    ((row < 0 ∨ (s.size : Int) ≤ row) →
      isValidMove s row col p = none ∧ playMove s row col = none) ∧
    ((0 ≤ row ∧ row < (s.size : Int)) → (col < 0 ∨ (s.size : Int) ≤ col) →
      isValidMove s row col p = some false ∧ playMove s row col = some (false, s)) := by
  have hblen : (s.board.length : Int) = (s.size : Int) := by
    exact_mod_cast hwf.1
  constructor
  · intro h
    have hrow : jsGet s.board row = none := @jsGet_none _ s.board row (by omega)
    have hv : ∀ q, isValidMove s row col q = none := by
      intro q
      simp only [isValidMove, hrow]
    refine ⟨hv p, ?_⟩
    simp only [playMove, hv s.currentPlayer]
  · intro hr hcout
    obtain ⟨rowArr, hrow⟩ := @jsGet_of_lt _ s.board row hr.1 (by omega)
    have hrlen : rowArr.length = s.size := hwf.2 rowArr (jsGet_mem hrow)
    have hcol : jsGet rowArr col = none := @jsGet_none _ rowArr col (by rw [hrlen]; omega)
    have hv : ∀ q, isValidMove s row col q = some false := by
      intro q
      simp only [isValidMove, hrow]
      rw [if_pos (by rw [hcol]; simp)]
    refine ⟨hv p, ?_⟩
    simp only [playMove, hv s.currentPlayer]

/-- Counterexample for C9 as stated: on the default 8x8 start state the
out-of-range column 8 is not signalled as an error -- isValidMove returns
the ordinary value false and playMove returns false leaving the state
unchanged, instead of the claimed OutOfBounds signal (none models a
thrown error). -/
theorem C9_counterexample :
    isValidMove startState 0 8 Player.player = some false ∧
      isValidMove startState 0 8 Player.player ≠ none ∧
      playMove startState 0 8 = some (false, startState) ∧
      playMove startState 0 8 ≠ none := by decide

/-- Witness for C9 (amended) on the start state: row -1 throws, column 8
with row 0 silently fails. -/
theorem C9_witness :
    (isValidMove startState (-1) 0 Player.player = none ∧
      playMove startState (-1) 0 = none) ∧
    (isValidMove startState 0 9 Player.ia = some false ∧
      playMove startState 0 9 = some (false, startState)) :=
  ⟨(C9_amended_out_of_bounds startState (-1) 0 Player.player ⟨by decide, by decide⟩).1
      (Or.inl (by decide)),
    (C9_amended_out_of_bounds startState 0 9 Player.ia ⟨by decide, by decide⟩).2
      ⟨by decide, by decide⟩ (Or.inr (by decide))⟩

/-- C8 (amended): initBoard performs no size validation. For an odd or
zero size the centre placement faults (TypeError) only after this.size and
the empty this.board have been assigned -- a partially initialised state
with currentPlayer and lastFlipped untouched. Every even non-zero size,
including the invalid size 2, completes silently. -/
theorem C8_amended_no_validation (size : Nat) (s : GameState) :
    (size % 2 = 1 ∨ size = 0 →
      initBoardRun size s = ({ s with size := size, board := emptyGrid size }, false)) ∧
    (size % 2 = 0 → size ≠ 0 → (initBoardRun size s).2 = true) := by
  constructor
  · intro h
    unfold initBoardRun
    rw [if_pos h]
  · intro h1 h2
    unfold initBoardRun
    rw [if_neg (by omega)]

/-- Witness for C8 (amended): size 5 faults after assigning size and the
empty board; size 2 completes. -/
theorem C8_witness :
    initBoardRun 5 ⟨[], 8, Player.ia, [(0, 0, Player.ia, Player.player)]⟩
        = (⟨emptyGrid 5, 5, Player.ia, [(0, 0, Player.ia, Player.player)]⟩, false) ∧
      (initBoardRun 2 ⟨[], 8, Player.player, []⟩).2 = true :=
  ⟨(C8_amended_no_validation 5 _).1 (Or.inl (by decide)),
    (C8_amended_no_validation 2 _).2 (by decide) (by decide)⟩

/-- Counterexample for C8 as stated: size 2 is invalid (even but below 4)
yet initBoard raises no ConfigurationError -- it completes normally and
builds a fully occupied 2x2 board. -/
theorem C8_counterexample :
    (2 : Nat) % 2 = 0 ∧ (2 : Nat) < 4 ∧
      (initBoardRun 2 ⟨[], 8, Player.player, []⟩).2 = true ∧
      (initBoardRun 2 ⟨[], 8, Player.player, []⟩).1.board
        = [[Player.player, Player.ia], [Player.ia, Player.player]] := by decide

end GameLogic

/-- Every coordinate delivered by a ray walk either was already in temp or
holds an opponent disc. -/
lemma rayWalk_mem {b : Board} {n : Nat} {pl opp : Player} {dx dy : Int} :
    ∀ (fuel : Nat) (r c : Int) (temp : List (Int × Int)) (x : Int × Int),
      x ∈ rayWalk b n pl opp dx dy fuel r c temp →
      x ∈ temp ∨ cellAt b x.1 x.2 = some opp := by
  intro fuel
  induction fuel with
  | zero =>
    intro r c temp x hx
    cases hx
  | succ fuel ih =>
    intro r c temp x hx
    simp only [rayWalk] at hx
    by_cases h1 : inBounds n r c
    · rw [if_pos h1] at hx
      by_cases h2 : cellAt b r c = some opp
      · rw [if_pos h2] at hx
        rcases ih _ _ _ _ hx with h | h
        · rcases List.mem_append.mp h with h | h
          · exact Or.inl h
          · have hx2 : x = (r, c) := by simpa using h
            subst hx2
            exact Or.inr h2
        · exact Or.inr h
      · rw [if_neg h2] at hx
        by_cases h3 : cellAt b r c = some pl
        · rw [if_pos h3] at hx
          exact Or.inl hx
        · rw [if_neg h3] at hx
          cases hx
    · rw [if_neg h1] at hx
      cases hx

/-- Membership in a fold that appends per-element lists. -/
lemma mem_foldl_append {α β : Type} (f : α → List β) :
    ∀ (l : List α) (init : List β) (x : β),
      x ∈ l.foldl (fun acc d => acc ++ f d) init ↔ x ∈ init ∨ ∃ d ∈ l, x ∈ f d := by
  intro l
  induction l with
  | nil =>
    intro init x
    simp
  | cons d rest ih =>
    intro init x
    simp only [List.foldl_cons]
    rw [ih]
    simp only [List.mem_append, List.mem_cons]
    constructor
    · rintro (⟨h | h⟩ | ⟨d2, hd2, h⟩)
      · exact Or.inl h
      · exact Or.inr ⟨d, Or.inl rfl, h⟩
      · exact Or.inr ⟨d2, Or.inr hd2, h⟩
    · rintro (h | ⟨d2, hd2 | hd2, h⟩)
      · exact Or.inl (Or.inl h)
      · subst hd2
        exact Or.inl (Or.inr h)
      · exact Or.inr ⟨d2, hd2, h⟩

/-- The opponent of any value is a real side, never the empty cell. -/
lemma opponentOf_ne_blank (p : Player) : opponentOf p ≠ Player.blank := by
  unfold opponentOf
  split <;> simp

/-- Decomposing a defined cell read. -/
lemma cellAt_eq_some_elim {b : Board} {r c : Int} {v : Player} (h : cellAt b r c = some v) :
    0 ≤ r ∧ 0 ≤ c ∧ ∃ rowArr, b.get? r.toNat = some rowArr ∧ rowArr.get? c.toNat = some v := by
  unfold cellAt jsGet at h
  by_cases hr : 0 ≤ r
  · rw [if_pos hr] at h
    cases hrow : b.get? r.toNat with
    | none =>
      rw [hrow] at h
      cases h
    | some rowArr =>
      rw [hrow] at h
      simp only [Option.some_bind] at h
      by_cases hc : 0 ≤ c
      · rw [if_pos hc] at h
        exact ⟨hr, hc, rowArr, rfl, h⟩
      · rw [if_neg hc] at h
        cases h
  · rw [if_neg hr] at h
    cases h

/-- Setting one index leaves the other entries of get? untouched. -/
lemma get?_set_ne {α : Type} (l : List α) (i j : Nat) (a : α) (h : i ≠ j) :
    (l.set i a).get? j = l.get? j := by
  rw [List.get?_eq_getElem?, List.get?_eq_getElem?, List.getElem?_set, if_neg h]

/-- Setting an existing index makes get? read the new value. -/
lemma get?_set_self {α : Type} (l : List α) (i : Nat) (a : α) (h : i < l.length) :
    (l.set i a).get? i = some a := by
  rw [List.get?_eq_getElem?, List.getElem?_set, if_pos rfl, if_pos h]

/-- setCell only changes the targeted coordinate. -/
lemma cellAt_setCell_ne {b : Board} {r c : Int} {p : Player} {r2 c2 : Int}
    (hne : r2 ≠ r ∨ c2 ≠ c) :
    cellAt (setCell b r c p) r2 c2 = cellAt b r2 c2 := by
  unfold setCell
  split
  case isFalse => rfl
  case isTrue hrc =>
    unfold cellAt jsGet
    by_cases h2 : 0 ≤ r2
    · rw [if_pos h2, if_pos h2]
      by_cases hrr : r.toNat = r2.toNat
      · have hr2r : r2 = r := by omega
        have hcc : c2 ≠ c := by
          rcases hne with h | h
          · exact absurd hr2r h
          · exact h
        rw [List.get?_eq_getElem?, List.getElem?_set, if_pos hrr]
        by_cases hlen : r.toNat < b.length
        · rw [if_pos hlen]
          cases hrow : b.get? r2.toNat with
          | none =>
            rw [List.get?_eq_getElem?] at hrow
            rw [← hrr] at hrow
            rw [List.getElem?_eq_none_iff] at hrow
            omega
          | some rowArr =>
            have hgd : (b.get? r.toNat).getD [] = rowArr := by
              rw [hr2r] at hrow
              rw [hrow]
              rfl
            rw [hgd]
            simp only [Option.some_bind]
            by_cases hc2 : 0 ≤ c2
            · rw [if_pos hc2, if_pos hc2]
              rw [get?_set_ne]
              omega
            · rw [if_neg hc2, if_neg hc2]
        · rw [if_neg hlen]
          have hnone : b.get? r2.toNat = none := by
            rw [List.get?_eq_getElem?, List.getElem?_eq_none_iff]
            omega
          rw [hnone]
      · rw [List.get?_eq_getElem?, List.getElem?_set, if_neg hrr, ← List.get?_eq_getElem?]
    · rw [if_neg h2, if_neg h2]

/-- setCell overwrites an existing cell. -/
lemma cellAt_setCell_self {b : Board} {r c : Int} {p v : Player}
    (h : cellAt b r c = some v) :
    cellAt (setCell b r c p) r c = some p := by
  obtain ⟨hr, hc, rowArr, hrow, hcol⟩ := cellAt_eq_some_elim h
  have hrl : r.toNat < b.length := by
    by_contra hcon
    rw [List.get?_eq_getElem?, List.getElem?_eq_none_iff.mpr (by omega)] at hrow
    cases hrow
  have hcl : c.toNat < rowArr.length := by
    by_contra hcon
    rw [List.get?_eq_getElem?, List.getElem?_eq_none_iff.mpr (by omega)] at hcol
    cases hcol
  unfold setCell
  rw [if_pos ⟨hr, hc⟩]
  unfold cellAt jsGet
  rw [if_pos hr, hrow]
  simp only [Option.getD_some]
  rw [get?_set_self _ _ _ hrl]
  simp only [Option.some_bind]
  rw [if_pos hc, get?_set_self _ _ _ hcl]

/-- Count arithmetic of a single row update. -/
lemma occRow_set :
    ∀ (row : List Player) (j : Nat) (v w : Player), row.get? j = some w →
      rowOcc (row.set j v) + (if w = Player.blank then 0 else 1)
        = rowOcc row + (if v = Player.blank then 0 else 1) := by
  intro row
  induction row with
  | nil =>
    intro j v w h
    cases h
  | cons a rest ih =>
    intro j v w h
    cases j with
    | zero =>
      have hw : w = a := by
        simpa using h.symm
      subst hw
      simp only [List.set_cons_zero, rowOcc, List.countP_cons]
      have e1 : ∀ u : Player,
          (if decide (u ≠ Player.blank) = true then (1 : Nat) else 0)
            = if u = Player.blank then 0 else 1 := by
        intro u
        by_cases hu : u = Player.blank <;> simp [hu]
      rw [e1, e1]
      omega
    | succ j =>
      have h2 := ih j v w (by simpa using h)
      simp only [List.set_cons_succ, rowOcc, List.countP_cons]
      simp only [rowOcc] at h2
      omega

/-- Count arithmetic of a single board-row replacement. -/
lemma occCount_set_row :
    ∀ (b : Board) (i : Nat) (rowOrig row2 : List Player), b.get? i = some rowOrig →
      occCount (b.set i row2) + rowOcc rowOrig = occCount b + rowOcc row2 := by
  intro b
  induction b with
  | nil =>
    intro i rowOrig row2 h
    cases h
  | cons x xs ih =>
    intro i rowOrig row2 h
    cases i with
    | zero =>
      have hw : rowOrig = x := by simpa using h.symm
      subst hw
      simp only [List.set_cons_zero, occCount, List.map_cons, List.sum_cons]
      omega
    | succ i =>
      have h2 := ih i rowOrig row2 (by simpa using h)
      simp only [List.set_cons_succ, occCount, List.map_cons, List.sum_cons]
      simp only [occCount] at h2
      omega

/-- The occupied-cell tally after one in-place write. -/
lemma occCount_setCell {b : Board} {r c : Int} {p v : Player} (h : cellAt b r c = some v) :
    occCount (setCell b r c p) + (if v = Player.blank then 0 else 1)
      = occCount b + (if p = Player.blank then 0 else 1) := by
  obtain ⟨hr, hc, rowArr, hrow, hcol⟩ := cellAt_eq_some_elim h
  unfold setCell
  rw [if_pos ⟨hr, hc⟩, hrow]
  simp only [Option.getD_some]
  have hboard := occCount_set_row b r.toNat rowArr (rowArr.set c.toNat p) hrow
  have hrowEq := occRow_set rowArr c.toNat p v hcol
  omega

/-- A non-blank write keeps every occupied cell occupied. -/
lemma occupied_setCell {b : Board} {r c r2 c2 : Int} {p : Player} (hp : p ≠ Player.blank)
    (h : occupied b r2 c2) : occupied (setCell b r c p) r2 c2 := by
  by_cases heq : r2 = r ∧ c2 = c
  · obtain ⟨v, hv, hvb⟩ := h
    rw [heq.1, heq.2] at hv ⊢
    exact ⟨p, cellAt_setCell_self hv, hp⟩
  · obtain ⟨v, hv, hvb⟩ := h
    exact ⟨v, by rw [cellAt_setCell_ne (by tauto)]; exact hv, hvb⟩

/-- Writing onto an occupied cell does not touch any blank cell. -/
lemma blank_setCell {b : Board} {r c r2 c2 : Int} {p v : Player}
    (hv : cellAt b r c = some v) (hvb : v ≠ Player.blank)
    (h2 : cellAt b r2 c2 = some Player.blank) :
    cellAt (setCell b r c p) r2 c2 = some Player.blank := by
  have hne : r2 ≠ r ∨ c2 ≠ c := by
    by_contra hcon
    push_neg at hcon
    rw [hcon.1, hcon.2, hv] at h2
    exact hvb (Option.some.inj h2)
  rw [cellAt_setCell_ne hne]
  exact h2

/-- Folding non-blank writes over occupied cells preserves the tally,
occupancy, and every blank cell. -/
lemma foldl_setCell_flips {p : Player} (hp : p ≠ Player.blank) :
    ∀ (L : List (Int × Int)) (b : Board),
      (∀ f ∈ L, occupied b f.1 f.2) →
      occCount (L.foldl (fun bb f => setCell bb f.1 f.2 p) b) = occCount b ∧
        (∀ r2 c2, occupied b r2 c2 →
          occupied (L.foldl (fun bb f => setCell bb f.1 f.2 p) b) r2 c2) ∧
        (∀ r2 c2, cellAt b r2 c2 = some Player.blank →
          cellAt (L.foldl (fun bb f => setCell bb f.1 f.2 p) b) r2 c2 = some Player.blank) := by
  intro L
  induction L with
  | nil =>
    intro b hf
    exact ⟨rfl, fun _ _ h => h, fun _ _ h => h⟩
  | cons f rest ih =>
    intro b hf
    obtain ⟨v, hv, hvb⟩ := hf f (List.mem_cons_self f rest)
    have hcount1 : occCount (setCell b f.1 f.2 p) = occCount b := by
      have h2 := @occCount_setCell b f.1 f.2 p v hv
      rw [if_neg hvb, if_neg hp] at h2
      omega
    have hihPre : ∀ g ∈ rest, occupied (setCell b f.1 f.2 p) g.1 g.2 := by
      intro g hg
      exact occupied_setCell hp (hf g (List.mem_cons_of_mem f hg))
    obtain ⟨ihc, iho, ihb⟩ := ih (setCell b f.1 f.2 p) hihPre
    simp only [List.foldl_cons]
    refine ⟨by rw [ihc, hcount1], ?_, ?_⟩
    · intro r2 c2 h2
      exact iho r2 c2 (occupied_setCell hp h2)
    · intro r2 c2 h2
      exact ihb r2 c2 (blank_setCell hv hvb h2)

namespace GameLogic

/-- Flipped discs are opponent discs on the board. -/
lemma getFlippableDiscs_mem {s : GameState} {row col : Int} {p : Player} {x : Int × Int}
    (hx : x ∈ getFlippableDiscs s row col p) :
    cellAt s.board x.1 x.2 = some (opponentOf p) := by
  unfold getFlippableDiscs at hx
  rw [mem_foldl_append] at hx
  rcases hx with h | ⟨d, hd, h⟩
  · cases h
  · rcases rayWalk_mem _ _ _ _ _ h with h | h
    · cases h
    · exact h

/-- C10: whenever playMove succeeds, the number of occupied cells grows by
exactly one, no occupied cell ever becomes empty (captured discs only
change side), and the turn passes to the opponent. -/
theorem C10_playMove_success_invariants (s : GameState) (row col : Int) (s2 : GameState)
    (hside : s.currentPlayer = Player.player ∨ s.currentPlayer = Player.ia)
    (h : playMove s row col = some (true, s2)) :
    occCount s2.board = occCount s.board + 1 ∧
      (∀ r2 c2, occupied s.board r2 c2 → occupied s2.board r2 c2) ∧
      s2.currentPlayer = opponentOf s.currentPlayer := by
  have hcurb : s.currentPlayer ≠ Player.blank := by
    rcases hside with h2 | h2 <;> rw [h2] <;> simp
  cases hvv : isValidMove s row col s.currentPlayer with
  | none =>
    simp only [playMove, hvv] at h
    cases h
  | some bb =>
    cases bb with
    | false =>
      simp only [playMove, hvv] at h
      simp at h
    | true =>
      simp only [playMove, hvv, Option.some.injEq, Prod.mk.injEq, true_and] at h
      obtain ⟨hblank, hflips⟩ := isValidMove_some_true.mp hvv
      have hfOcc : ∀ f ∈ getFlippableDiscs s row col s.currentPlayer,
          occupied s.board f.1 f.2 := by
        intro f hf
        exact ⟨opponentOf s.currentPlayer, getFlippableDiscs_mem hf,
          opponentOf_ne_blank s.currentPlayer⟩
      obtain ⟨hc1, ho1, hb1⟩ := foldl_setCell_flips hcurb
        (getFlippableDiscs s row col s.currentPlayer) s.board hfOcc
      have hblank1 := hb1 row col hblank
      have hcount2 := @occCount_setCell _ row col s.currentPlayer Player.blank hblank1
      rw [if_pos rfl, if_neg hcurb] at hcount2
      refine ⟨?_, ?_, ?_⟩
      · rw [← h]
        simp only []
        omega
      · intro r2 c2 h2
        rw [← h]
        exact occupied_setCell hcurb (ho1 r2 c2 h2)
      · rw [← h]

/-- Witness for C10: playing (0, 2) on the size-4 start position flips
(1, 2), adds one disc, and hands the turn to ia. -/
theorem C10_witness :
    (startState4.currentPlayer = Player.player ∨ startState4.currentPlayer = Player.ia) ∧
      playMove startState4 0 2 = some (true, ⟨[[Player.blank, Player.blank, Player.player, Player.blank], [Player.blank, Player.player, Player.player, Player.blank], [Player.blank, Player.ia, Player.player, Player.blank], [Player.blank, Player.blank, Player.blank, Player.blank]], 4, Player.ia, [(1, 2, Player.ia, Player.player), (0, 2, Player.blank, Player.player)]⟩) ∧
      (occCount (⟨[[Player.blank, Player.blank, Player.player, Player.blank], [Player.blank, Player.player, Player.player, Player.blank], [Player.blank, Player.ia, Player.player, Player.blank], [Player.blank, Player.blank, Player.blank, Player.blank]], 4, Player.ia, [(1, 2, Player.ia, Player.player), (0, 2, Player.blank, Player.player)]⟩ : GameState).board = occCount startState4.board + 1 ∧
        (∀ r2 c2, occupied startState4.board r2 c2 → occupied (⟨[[Player.blank, Player.blank, Player.player, Player.blank], [Player.blank, Player.player, Player.player, Player.blank], [Player.blank, Player.ia, Player.player, Player.blank], [Player.blank, Player.blank, Player.blank, Player.blank]], 4, Player.ia, [(1, 2, Player.ia, Player.player), (0, 2, Player.blank, Player.player)]⟩ : GameState).board r2 c2) ∧
        (⟨[[Player.blank, Player.blank, Player.player, Player.blank], [Player.blank, Player.player, Player.player, Player.blank], [Player.blank, Player.ia, Player.player, Player.blank], [Player.blank, Player.blank, Player.blank, Player.blank]], 4, Player.ia, [(1, 2, Player.ia, Player.player), (0, 2, Player.blank, Player.player)]⟩ : GameState).currentPlayer = opponentOf startState4.currentPlayer) :=
  ⟨Or.inl (by decide), by decide,
    C10_playMove_success_invariants startState4 0 2 ⟨[[Player.blank, Player.blank, Player.player, Player.blank], [Player.blank, Player.player, Player.player, Player.blank], [Player.blank, Player.ia, Player.player, Player.blank], [Player.blank, Player.blank, Player.blank, Player.blank]], 4, Player.ia, [(1, 2, Player.ia, Player.player), (0, 2, Player.blank, Player.player)]⟩
      (Or.inl (by decide)) (by decide)⟩

end GameLogic

end Othello

namespace Othello

namespace GameAI

/-- hWrite through references that are all at least base leaves every heap
row below base untouched. -/
lemma hWrite_preserve {hb : HBoard} {base : Nat}
    (hrefs : ∀ a ∈ hb.refs, base ≤ a) (hh : Heap) (r c : Int) (p : Player) :
    ∀ a2, a2 < base → (hWrite hh hb r c p).rows.get? a2 = hh.rows.get? a2 := by
  intro a2 ha2
  cases hj : jsGet hb.refs r with
  | none => simp only [hWrite, hj]
  | some a =>
    have hbase : base ≤ a := hrefs a (jsGet_mem hj)
    simp only [hWrite, hj]
    split
    · exact get?_set_ne _ _ _ _ (by omega)
    · rfl

/-- Folded hWrites through fresh references leave old rows untouched. -/
lemma foldl_hWrite_preserve {hb : HBoard} {base : Nat}
    (hrefs : ∀ a ∈ hb.refs, base ≤ a) (p : Player) :
    ∀ (L : List (Int × Int)) (hh : Heap) (a2 : Nat), a2 < base →
      (L.foldl (fun h2 f => hWrite h2 hb f.1 f.2 p) hh).rows.get? a2 = hh.rows.get? a2 := by
  intro L
  induction L with
  | nil =>
    intro hh a2 h2
    rfl
  | cons f rest ih =>
    intro hh a2 h2
    simp only [List.foldl_cons]
    rw [ih _ _ h2, hWrite_preserve hrefs _ _ _ _ _ h2]

/-- Every reference of the freshly allocated board is at least the old
heap length. -/
lemma applyMoveH_refs_ge (h : Heap) (hb : HBoard) (row col : Int) (p : Player) :
    ∀ a ∈ (applyMoveH h hb row col p).2.refs, h.rows.length ≤ a := by
  intro a ha
  simp only [applyMoveH, List.mem_map, List.mem_range] at ha
  obtain ⟨i, _, rfl⟩ := ha
  omega

/-- The final heap of applyMoveH agrees with the input heap on every row
the input board references. -/
lemma applyMoveH_rows_preserved (h : Heap) (hb : HBoard) (row col : Int) (p : Player)
    (a : Nat) (ha : a < h.rows.length) :
    (applyMoveH h hb row col p).1.rows.get? a = h.rows.get? a := by
  have hrefs := applyMoveH_refs_ge h hb row col p
  simp only [applyMoveH] at hrefs ⊢
  rw [hWrite_preserve hrefs _ _ _ _ _ ha, foldl_hWrite_preserve hrefs _ _ _ _ ha]
  show (h.rows ++ hb.refs.map (fun a2 => (readRow h a2).getD [])).get? a = h.rows.get? a
  rw [List.get?_eq_getElem?, List.get?_eq_getElem?, List.getElem?_append, if_pos ha]

/-- C7: applyMove, modelled with its allocations explicit
(board.map(rowArr => rowArr.slice()) followed by in-place writes to the
copy), returns a board made of entirely fresh rows and leaves every cell
readable through the input board unchanged. -/
theorem C7_applyMove_fresh (h : Heap) (hb : HBoard) (row col : Int) (p : Player)
    (hwf : ∀ a ∈ hb.refs, a < h.rows.length) :
    (∀ r c, hCellAt (applyMoveH h hb row col p).1 hb r c = hCellAt h hb r c) ∧
      (∀ a ∈ (applyMoveH h hb row col p).2.refs, a ∉ hb.refs) := by
  constructor
  · intro r c
    unfold hCellAt
    cases hj : jsGet hb.refs r with
    | none => rfl
    | some a =>
      simp only [Option.some_bind]
      unfold readRow
      rw [applyMoveH_rows_preserved h hb row col p a (hwf a (jsGet_mem hj))]
  · intro a ha hmem
    have h1 := applyMoveH_refs_ge h hb row col p a ha
    have h2 := hwf a hmem
    omega

/-- Witness for C7 on a concrete two-row heap. -/
theorem C7_witness :
    (∀ a ∈ (HBoard.mk [0, 1]).refs, a < (Heap.mk [[Player.blank, Player.blank],
      [Player.player, Player.ia]]).rows.length) ∧
      ((∀ r c, hCellAt (applyMoveH (Heap.mk [[Player.blank, Player.blank],
          [Player.player, Player.ia]]) (HBoard.mk [0, 1]) 0 0 Player.player).1
          (HBoard.mk [0, 1]) r c
        = hCellAt (Heap.mk [[Player.blank, Player.blank], [Player.player, Player.ia]])
          (HBoard.mk [0, 1]) r c) ∧
        (∀ a ∈ (applyMoveH (Heap.mk [[Player.blank, Player.blank],
            [Player.player, Player.ia]]) (HBoard.mk [0, 1]) 0 0 Player.player).2.refs,
          a ∉ (HBoard.mk [0, 1]).refs)) :=
  ⟨by decide,
    C7_applyMove_fresh (Heap.mk [[Player.blank, Player.blank], [Player.player, Player.ia]])
      (HBoard.mk [0, 1]) 0 0 Player.player (by decide)⟩

end GameAI

end Othello

namespace Othello

namespace GameAI

/-- Pointwise-equal child evaluators give equal maximizing loops. -/
lemma maxLoop_congr {c1 c2 : Move → E → E} {beta : E} :
    ∀ (L : List Move) (v alpha : E), (∀ m ∈ L, ∀ a, c1 m a = c2 m a) →
      maxLoop c1 beta L v alpha = maxLoop c2 beta L v alpha := by
  intro L
  induction L with
  | nil =>
    intro v alpha h
    rfl
  | cons m rest ih =>
    intro v alpha h
    simp only [maxLoop]
    rw [h m (List.mem_cons_self m rest)]
    split
    · rfl
    · exact ih _ _ (fun m2 hm2 a => h m2 (List.mem_cons_of_mem m hm2) a)

/-- Pointwise-equal child evaluators give equal minimizing loops. -/
lemma minLoop_congr {c1 c2 : Move → E → E} {alpha : E} :
    ∀ (L : List Move) (v beta : E), (∀ m ∈ L, ∀ bb, c1 m bb = c2 m bb) →
      minLoop c1 alpha L v beta = minLoop c2 alpha L v beta := by
  intro L
  induction L with
  | nil =>
    intro v beta h
    rfl
  | cons m rest ih =>
    intro v beta h
    simp only [minLoop]
    rw [h m (List.mem_cons_self m rest)]
    split
    · rfl
    · exact ih _ _ (fun m2 hm2 bb => h m2 (List.mem_cons_of_mem m hm2) bb)

/-- Pointwise-equal child evaluators give equal plain maximizing loops. -/
lemma maxLoopP_congr {c1 c2 : Move → E} :
    ∀ (L : List Move) (v : E), (∀ m ∈ L, c1 m = c2 m) →
      maxLoopP c1 L v = maxLoopP c2 L v := by
  intro L
  induction L with
  | nil =>
    intro v h
    rfl
  | cons m rest ih =>
    intro v h
    simp only [maxLoopP]
    rw [h m (List.mem_cons_self m rest)]
    exact ih _ (fun m2 hm2 => h m2 (List.mem_cons_of_mem m hm2))

/-- Pointwise-equal child evaluators give equal plain minimizing loops. -/
lemma minLoopP_congr {c1 c2 : Move → E} :
    ∀ (L : List Move) (v : E), (∀ m ∈ L, c1 m = c2 m) →
      minLoopP c1 L v = minLoopP c2 L v := by
  intro L
  induction L with
  | nil =>
    intro v h
    rfl
  | cons m rest ih =>
    intro v h
    simp only [minLoopP]
    rw [h m (List.mem_cons_self m rest)]
    exact ih _ (fun m2 hm2 => h m2 (List.mem_cons_of_mem m hm2))

/-- The search measure is at most 2*depth + 1. -/
lemma muNode_le (b : Board) (depth : Nat) (t : Player) : muNode b depth t ≤ 2 * depth + 1 := by
  unfold muNode
  split <;> omega

/-- Above the search measure, the fuel value is irrelevant. -/
lemma minimaxF_fuel :
    ∀ (f g : Nat) (b : Board) (depth : Nat) (alpha beta : E) (root toMove : Player),
      muNode b depth toMove < f → muNode b depth toMove < g →
      minimaxF f b depth alpha beta root toMove = minimaxF g b depth alpha beta root toMove := by
  intro f
  induction f using Nat.strong_induction_on with
  | _ f ih =>
    intro g b depth alpha beta root toMove hf hg
    obtain ⟨f1, rfl⟩ : ∃ f1, f = f1 + 1 := ⟨f - 1, by omega⟩
    obtain ⟨g1, rfl⟩ : ∃ g1, g = g1 + 1 := ⟨g - 1, by omega⟩
    simp only [minimaxF]
    by_cases hleaf : depth = 0 ∨ isTerminal b
    · rw [if_pos hleaf, if_pos hleaf]
    · rw [if_neg hleaf, if_neg hleaf]
      have hd : depth ≠ 0 := by
        intro h2
        exact hleaf (Or.inl h2)
      by_cases hmv : getValidMoves b toMove = []
      · rw [if_pos hmv, if_pos hmv]
        by_cases hop : getValidMoves b (opponentOf toMove) = []
        · rw [if_pos hop, if_pos hop]
        · rw [if_neg hop, if_neg hop]
          have hmuT : muNode b depth toMove = 2 * depth + 1 := by
            unfold muNode
            rw [if_pos hmv]
          have hmuO : muNode b depth (opponentOf toMove) = 2 * depth := by
            unfold muNode
            rw [if_neg hop]
            omega
          exact ih f1 (by omega) g1 b depth alpha beta root (opponentOf toMove)
            (by omega) (by omega)
      · rw [if_neg hmv, if_neg hmv]
        have hmuT : muNode b depth toMove = 2 * depth := by
          unfold muNode
          rw [if_neg hmv]
          omega
        by_cases hmax : toMove = root
        · rw [if_pos hmax, if_pos hmax]
          apply maxLoop_congr
          intro m hm a
          have hc := muNode_le (applyMove b m.1 m.2 toMove) (depth - 1) (opponentOf toMove)
          exact ih f1 (by omega) g1 _ (depth - 1) a beta root (opponentOf toMove)
            (by omega) (by omega)
        · rw [if_neg hmax, if_neg hmax]
          apply minLoop_congr
          intro m hm bb
          have hc := muNode_le (applyMove b m.1 m.2 toMove) (depth - 1) (opponentOf toMove)
          exact ih f1 (by omega) g1 _ (depth - 1) alpha bb root (opponentOf toMove)
            (by omega) (by omega)

/-- Above the search measure, the fuel of the plain search is
irrelevant. -/
lemma minimaxPlainF_fuel :
    ∀ (f g : Nat) (b : Board) (depth : Nat) (root toMove : Player),
      muNode b depth toMove < f → muNode b depth toMove < g →
      minimaxPlainF f b depth root toMove = minimaxPlainF g b depth root toMove := by
  intro f
  induction f using Nat.strong_induction_on with
  | _ f ih =>
    intro g b depth root toMove hf hg
    obtain ⟨f1, rfl⟩ : ∃ f1, f = f1 + 1 := ⟨f - 1, by omega⟩
    obtain ⟨g1, rfl⟩ : ∃ g1, g = g1 + 1 := ⟨g - 1, by omega⟩
    simp only [minimaxPlainF]
    by_cases hleaf : depth = 0 ∨ isTerminal b
    · rw [if_pos hleaf, if_pos hleaf]
    · rw [if_neg hleaf, if_neg hleaf]
      have hd : depth ≠ 0 := by
        intro h2
        exact hleaf (Or.inl h2)
      by_cases hmv : getValidMoves b toMove = []
      · rw [if_pos hmv, if_pos hmv]
        by_cases hop : getValidMoves b (opponentOf toMove) = []
        · rw [if_pos hop, if_pos hop]
        · rw [if_neg hop, if_neg hop]
          have hmuT : muNode b depth toMove = 2 * depth + 1 := by
            unfold muNode
            rw [if_pos hmv]
          have hmuO : muNode b depth (opponentOf toMove) = 2 * depth := by
            unfold muNode
            rw [if_neg hop]
            omega
          exact ih f1 (by omega) g1 b depth root (opponentOf toMove) (by omega) (by omega)
      · rw [if_neg hmv, if_neg hmv]
        have hmuT : muNode b depth toMove = 2 * depth := by
          unfold muNode
          rw [if_neg hmv]
          omega
        by_cases hmax : toMove = root
        · rw [if_pos hmax, if_pos hmax]
          apply maxLoopP_congr
          intro m hm
          have hc := muNode_le (applyMove b m.1 m.2 toMove) (depth - 1) (opponentOf toMove)
          exact ih f1 (by omega) g1 _ (depth - 1) root (opponentOf toMove)
            (by omega) (by omega)
        · rw [if_neg hmax, if_neg hmax]
          apply minLoopP_congr
          intro m hm
          have hc := muNode_le (applyMove b m.1 m.2 toMove) (depth - 1) (opponentOf toMove)
          exact ih f1 (by omega) g1 _ (depth - 1) root (opponentOf toMove)
            (by omega) (by omega)

/-- The opponent value is always one of the two real sides. -/
lemma opponentOf_side (t : Player) : opponentOf t = Player.player ∨ opponentOf t = Player.ia := by
  unfold opponentOf
  split <;> simp

/-- A side with legal moves rules out the terminal condition. -/
lemma isTerminal_eq_false {b : Board} {t : Player}
    (h : getValidMoves b (opponentOf t) ≠ []) : isTerminal b = false := by
  rcases opponentOf_side t with h2 | h2 <;> rw [h2] at h <;> simp [isTerminal, h]

/-- C3: in the search recursion, a side to move with no legal moves whose
opponent still has one recurses with the opponent to move at the same
depth (the pass consumes no depth), and a position where neither side has
a legal move is a leaf evaluated with evaluate(board, rootSide). -/
theorem C3_pass_same_depth_and_double_pass_leaf (b : Board) (depth : Nat) (alpha beta : E)
    (root toMove : Player) :
    (depth ≠ 0 → getValidMoves b toMove = [] →
      getValidMoves b (opponentOf toMove) ≠ [] →
      minimax b depth alpha beta root toMove
        = minimax b depth alpha beta root (opponentOf toMove)) ∧
    (getValidMoves b Player.player = [] → getValidMoves b Player.ia = [] →
      minimax b depth alpha beta root toMove = evE b root) := by
  constructor
  · intro hd hmv hop
    have hterm : isTerminal b = false := isTerminal_eq_false hop
    unfold minimax
    rw [show 2 * depth + 2 = (2 * depth + 1) + 1 from rfl]
    simp only [minimaxF]
    rw [if_neg (by simp [hd, hterm]), if_pos hmv, if_neg hop]
    have hmuO : muNode b depth (opponentOf toMove) = 2 * depth := by
      unfold muNode
      rw [if_neg hop]
      omega
    exact minimaxF_fuel (2 * depth + 1) ((2 * depth + 1) + 1) b depth alpha beta root
      (opponentOf toMove) (by omega) (by omega)
  · intro hp hi
    have hterm : isTerminal b = true := by
      simp [isTerminal, hp, hi]
    unfold minimax
    rw [show 2 * depth + 2 = (2 * depth + 1) + 1 from rfl]
    simp only [minimaxF]
    rw [if_pos (Or.inr hterm)]

/-- Witness for C3: a 4x4 position where player must pass while ia can
move, and the all-blank 4x4 board where neither side can move. -/
theorem C3_witness :
    ((1 : Nat) ≠ 0 ∧
      getValidMoves [[Player.ia, Player.player, Player.blank, Player.blank],
        [Player.blank, Player.blank, Player.blank, Player.blank],
        [Player.blank, Player.blank, Player.blank, Player.blank],
        [Player.blank, Player.blank, Player.blank, Player.blank]] Player.player = [] ∧
      getValidMoves [[Player.ia, Player.player, Player.blank, Player.blank],
        [Player.blank, Player.blank, Player.blank, Player.blank],
        [Player.blank, Player.blank, Player.blank, Player.blank],
        [Player.blank, Player.blank, Player.blank, Player.blank]]
        (opponentOf Player.player) ≠ [] ∧
      minimax [[Player.ia, Player.player, Player.blank, Player.blank],
        [Player.blank, Player.blank, Player.blank, Player.blank],
        [Player.blank, Player.blank, Player.blank, Player.blank],
        [Player.blank, Player.blank, Player.blank, Player.blank]] 1 ⊥ ⊤ Player.ia Player.player
        = minimax [[Player.ia, Player.player, Player.blank, Player.blank],
          [Player.blank, Player.blank, Player.blank, Player.blank],
          [Player.blank, Player.blank, Player.blank, Player.blank],
          [Player.blank, Player.blank, Player.blank, Player.blank]] 1 ⊥ ⊤ Player.ia
          (opponentOf Player.player)) ∧
      (getValidMoves ([[Player.blank, Player.blank], [Player.blank, Player.blank]] : Board)
          Player.player = [] ∧
        getValidMoves ([[Player.blank, Player.blank], [Player.blank, Player.blank]] : Board)
          Player.ia = [] ∧
        minimax [[Player.blank, Player.blank], [Player.blank, Player.blank]] 3 ⊥ ⊤
            Player.player Player.ia
          = evE [[Player.blank, Player.blank], [Player.blank, Player.blank]] Player.player) :=
  ⟨⟨by decide, by decide, by decide,
      (C3_pass_same_depth_and_double_pass_leaf _ 1 ⊥ ⊤ Player.ia Player.player).1
        (by decide) (by decide) (by decide)⟩,
    ⟨by decide, by decide,
      (C3_pass_same_depth_and_double_pass_leaf _ 3 ⊥ ⊤ Player.player Player.ia).2
        (by decide) (by decide)⟩⟩

end GameAI

end Othello

namespace Othello

namespace GameAI

/-- Order of finite extended scores. -/
lemma toE_le {a b : Int} : toE a ≤ toE b ↔ a ≤ b := by
  unfold toE
  rw [WithBot.coe_le_coe, WithTop.coe_le_coe]

/-- Strict order of finite extended scores. -/
lemma toE_lt {a b : Int} : toE a < toE b ↔ a < b := by
  unfold toE
  rw [WithBot.coe_lt_coe, WithTop.coe_lt_coe]

/-- Finite scores exceed -Infinity. -/
lemma bot_lt_toE (a : Int) : (⊥ : E) < toE a :=
  WithBot.bot_lt_coe _

/-- Finite scores are below Infinity. -/
lemma toE_lt_top (a : Int) : toE a < (⊤ : E) := by
  have h0 : ((⊤ : WithTop Int) : E) = (⊤ : E) := rfl
  unfold toE
  rw [← h0, WithBot.coe_lt_coe]
  exact WithTop.coe_lt_top a

/-- max preserves finiteness. -/
lemma isFin_max {x y : E} (hx : isFin x) (hy : isFin y) : isFin (max x y) := by
  obtain ⟨a, rfl⟩ := hx
  obtain ⟨b, rfl⟩ := hy
  rcases le_total a b with h | h
  · rw [max_eq_right (toE_le.mpr h)]
    exact ⟨b, rfl⟩
  · rw [max_eq_left (toE_le.mpr h)]
    exact ⟨a, rfl⟩

/-- min preserves finiteness. -/
lemma isFin_min {x y : E} (hx : isFin x) (hy : isFin y) : isFin (min x y) := by
  obtain ⟨a, rfl⟩ := hx
  obtain ⟨b, rfl⟩ := hy
  rcases le_total a b with h | h
  · rw [min_eq_left (toE_le.mpr h)]
    exact ⟨a, rfl⟩
  · rw [min_eq_right (toE_le.mpr h)]
    exact ⟨b, rfl⟩

/-- The maximizing loop yields a finite value once it sees one. -/
lemma maxLoop_fin {child : Move → E → E} {beta : E} (hc : ∀ m a, isFin (child m a)) :
    ∀ (L : List Move) (v alpha : E), isFin v ∨ (v = ⊥ ∧ L ≠ []) →
      isFin (maxLoop child beta L v alpha) := by
  intro L
  induction L with
  | nil =>
    intro v alpha h
    rcases h with h | ⟨_, h⟩
    · exact h
    · exact absurd rfl h
  | cons m rest ih =>
    intro v alpha h
    have hv2 : isFin (max v (child m alpha)) := by
      rcases h with h | ⟨h2, _⟩
      · exact isFin_max h (hc m alpha)
      · rw [h2, max_eq_right bot_le]
        exact hc m alpha
    simp only [maxLoop]
    split
    · exact hv2
    · exact ih _ _ (Or.inl hv2)

/-- The minimizing loop yields a finite value once it sees one. -/
lemma minLoop_fin {child : Move → E → E} {alpha : E} (hc : ∀ m bb, isFin (child m bb)) :
    ∀ (L : List Move) (v beta : E), isFin v ∨ (v = ⊤ ∧ L ≠ []) →
      isFin (minLoop child alpha L v beta) := by
  intro L
  induction L with
  | nil =>
    intro v beta h
    rcases h with h | ⟨_, h⟩
    · exact h
    · exact absurd rfl h
  | cons m rest ih =>
    intro v beta h
    have hv2 : isFin (min v (child m beta)) := by
      rcases h with h | ⟨h2, _⟩
      · exact isFin_min h (hc m beta)
      · rw [h2, min_eq_right le_top]
        exact hc m beta
    simp only [minLoop]
    split
    · exact hv2
    · exact ih _ _ (Or.inl hv2)

/-- The alpha-beta search value is always finite: evaluate produces
integers and the loops only combine child values over non-empty move
lists. -/
lemma minimaxF_fin :
    ∀ (fuel : Nat) (b : Board) (depth : Nat) (alpha beta : E) (root t : Player),
      isFin (minimaxF fuel b depth alpha beta root t) := by
  intro fuel
  induction fuel with
  | zero =>
    intro b depth alpha beta root t
    exact ⟨evaluate b root, rfl⟩
  | succ fuel ih =>
    intro b depth alpha beta root t
    simp only [minimaxF]
    by_cases hleaf : depth = 0 ∨ isTerminal b
    · rw [if_pos hleaf]
      exact ⟨evaluate b root, rfl⟩
    · rw [if_neg hleaf]
      by_cases hmv : getValidMoves b t = []
      · rw [if_pos hmv]
        by_cases hop : getValidMoves b (opponentOf t) = []
        · rw [if_pos hop]
          exact ⟨evaluate b root, rfl⟩
        · rw [if_neg hop]
          exact ih b depth alpha beta root (opponentOf t)
      · rw [if_neg hmv]
        by_cases hmax : t = root
        · rw [if_pos hmax]
          exact maxLoop_fin (fun m a => ih _ _ _ _ _ _) _ _ _ (Or.inr ⟨rfl, hmv⟩)
        · rw [if_neg hmax]
          exact minLoop_fin (fun m bb => ih _ _ _ _ _ _) _ _ _ (Or.inr ⟨rfl, hmv⟩)

/-- The plain maximizing loop preserves finiteness. -/
lemma maxLoopP_fin {child : Move → E} :
    ∀ (L : List Move) (v : E), (∀ m ∈ L, isFin (child m)) → isFin v →
      isFin (maxLoopP child L v) := by
  intro L
  induction L with
  | nil =>
    intro v _ hv
    exact hv
  | cons m rest ih =>
    intro v hc hv
    simp only [maxLoopP]
    exact ih _ (fun m2 hm2 => hc m2 (List.mem_cons_of_mem m hm2))
      (isFin_max hv (hc m (List.mem_cons_self m rest)))

/-- The plain minimizing loop preserves finiteness. -/
lemma minLoopP_fin {child : Move → E} :
    ∀ (L : List Move) (v : E), (∀ m ∈ L, isFin (child m)) → isFin v →
      isFin (minLoopP child L v) := by
  intro L
  induction L with
  | nil =>
    intro v _ hv
    exact hv
  | cons m rest ih =>
    intro v hc hv
    simp only [minLoopP]
    exact ih _ (fun m2 hm2 => hc m2 (List.mem_cons_of_mem m hm2))
      (isFin_min hv (hc m (List.mem_cons_self m rest)))

/-- The plain search value is always finite. -/
lemma minimaxPlainF_fin :
    ∀ (fuel : Nat) (b : Board) (depth : Nat) (root t : Player),
      isFin (minimaxPlainF fuel b depth root t) := by
  intro fuel
  induction fuel with
  | zero =>
    intro b depth root t
    exact ⟨evaluate b root, rfl⟩
  | succ fuel ih =>
    intro b depth root t
    simp only [minimaxPlainF]
    by_cases hleaf : depth = 0 ∨ isTerminal b
    · rw [if_pos hleaf]
      exact ⟨evaluate b root, rfl⟩
    · rw [if_neg hleaf]
      by_cases hmv : getValidMoves b t = []
      · rw [if_pos hmv]
        by_cases hop : getValidMoves b (opponentOf t) = []
        · rw [if_pos hop]
          exact ⟨evaluate b root, rfl⟩
        · rw [if_neg hop]
          exact ih b depth root (opponentOf t)
      · rw [if_neg hmv]
        cases hm2 : getValidMoves b t with
        | nil => exact absurd hm2 hmv
        | cons m rest =>
          by_cases hmax : t = root
          · rw [if_pos hmax]
            simp only [maxLoopP]
            rw [max_eq_right bot_le]
            exact maxLoopP_fin rest _ (fun m2 hm3 => ih _ _ _ _) (ih _ _ _ _)
          · rw [if_neg hmax]
            simp only [minLoopP]
            rw [min_eq_right le_top]
            exact minLoopP_fin rest _ (fun m2 hm3 => ih _ _ _ _) (ih _ _ _ _)

/-- The plain root loop keeps a some best move. -/
lemma rootLoop_some_ne_none {child : Move → E → E} :
    ∀ (L : List Move) (bs : E) (m0 : Move) (alpha : E),
      rootLoop child L bs (some m0) alpha ≠ none := by
  intro L
  induction L with
  | nil =>
    intro bs m0 alpha
    simp [rootLoop]
  | cons m rest ih =>
    intro bs m0 alpha
    simp only [rootLoop]
    by_cases hc : bs < child m alpha
    · simp only [if_pos hc]
      split
      · simp
      · exact ih _ _ _
    · simp only [if_neg hc]
      split
      · simp
      · exact ih _ _ _

/-- With at least one legal move, minimaxDecision returns a move. -/
lemma minimaxDecision_ne_none {b : Board} {p : Player} {depth : Nat}
    (h : getValidMoves b p ≠ []) : minimaxDecision b p depth ≠ none := by
  simp only [minimaxDecision]
  rw [if_neg h]
  cases hm : getValidMoves b p with
  | nil => exact absurd hm h
  | cons m rest =>
    simp only [rootLoop]
    obtain ⟨z, hz⟩ : isFin (minimax (applyMove b m.1 m.2 p) (depth - 1) ⊥ ⊤ p (opponentOf p)) :=
      minimaxF_fin _ _ _ _ _ _ _
    have hlt : (⊥ : E) < minimax (applyMove b m.1 m.2 p) (depth - 1) ⊥ ⊤ p (opponentOf p) := by
      rw [hz]
      exact bot_lt_toE z
    rw [if_pos hlt, if_pos hlt]
    split
    · simp
    · exact rootLoop_some_ne_none _ _ _ _

/-- C6: at Expert difficulty (randomProbability 0.0) chooseMove never
consults the random source -- any two random streams give the same move --
and with at least one legal move the result is never null. -/
theorem C6_chooseMove_expert_deterministic (b : Board) (p : Player)
    (h : getValidMoves b p ≠ []) (rng1 rng2 : Nat → Rat) :
    chooseMove rng1 b p Difficulty.Expert = chooseMove rng2 b p Difficulty.Expert ∧
      chooseMove rng1 b p Difficulty.Expert ≠ none := by
  have hexp : ∀ rng : Nat → Rat,
      chooseMove rng b p Difficulty.Expert = minimaxDecision b p 5 := by
    intro rng
    simp only [chooseMove, depthByDifficulty]
    rw [if_neg h]
  refine ⟨by rw [hexp rng1, hexp rng2], ?_⟩
  rw [hexp rng1]
  exact minimaxDecision_ne_none h

/-- Witness for C6 on the 4x4 start board with two different random
streams. -/
theorem C6_witness :
    getValidMoves GameLogic.startState4.board Player.player ≠ [] ∧
      (chooseMove (fun _ => 0) GameLogic.startState4.board Player.player Difficulty.Expert
          = chooseMove (fun _ => 1 / 2) GameLogic.startState4.board Player.player
            Difficulty.Expert ∧
        chooseMove (fun _ => 0) GameLogic.startState4.board Player.player Difficulty.Expert
          ≠ none) :=
  ⟨by decide,
    C6_chooseMove_expert_deterministic GameLogic.startState4.board Player.player (by decide)
      (fun _ => 0) (fun _ => 1 / 2)⟩

end GameAI

end Othello

namespace Othello

namespace GameAI

/-- The plain maximizing loop dominates its seed. -/
lemma maxLoopP_le_init {child : Move → E} :
    ∀ (L : List Move) (v : E), v ≤ maxLoopP child L v := by
  intro L
  induction L with
  | nil =>
    intro v
    exact le_rfl
  | cons m rest ih =>
    intro v
    exact le_trans (le_max_left v (child m)) (ih (max v (child m)))

/-- The plain minimizing loop is dominated by its seed. -/
lemma minLoopP_le_init {child : Move → E} :
    ∀ (L : List Move) (v : E), minLoopP child L v ≤ v := by
  intro L
  induction L with
  | nil =>
    intro v
    exact le_rfl
  | cons m rest ih =>
    intro v
    exact le_trans (ih (min v (child m))) (min_le_left v (child m))

/-- The plain maximizing loop is monotone in its seed. -/
lemma maxLoopP_mono {child : Move → E} :
    ∀ (L : List Move) {x y : E}, x ≤ y → maxLoopP child L x ≤ maxLoopP child L y := by
  intro L
  induction L with
  | nil =>
    intro x y h
    exact h
  | cons m rest ih =>
    intro x y h
    exact ih (max_le_max h le_rfl)

/-- The plain minimizing loop is monotone in its seed. -/
lemma minLoopP_mono {child : Move → E} :
    ∀ (L : List Move) {x y : E}, x ≤ y → minLoopP child L x ≤ minLoopP child L y := by
  intro L
  induction L with
  | nil =>
    intro x y h
    exact h
  | cons m rest ih =>
    intro x y h
    exact ih (min_le_min h le_rfl)

/-- A max in the seed commutes out of the plain maximizing loop. -/
lemma maxLoopP_max_out {child : Move → E} :
    ∀ (L : List Move) (x y : E), maxLoopP child L (max x y) = max x (maxLoopP child L y) := by
  intro L
  induction L with
  | nil =>
    intro x y
    rfl
  | cons m rest ih =>
    intro x y
    simp only [maxLoopP]
    rw [max_assoc, ih]

/-- A min in the seed commutes out of the plain minimizing loop. -/
lemma minLoopP_min_out {child : Move → E} :
    ∀ (L : List Move) (x y : E), minLoopP child L (min x y) = min x (minLoopP child L y) := by
  intro L
  induction L with
  | nil =>
    intro x y
    rfl
  | cons m rest ih =>
    intro m2 y
    simp only [minLoopP]
    rw [min_assoc, ih]

/-- Clipping one sup component at beta does not change the inf with
beta. -/
lemma min_max_absorb (beta x y z : E) :
    min beta (max (max x (min beta y)) z) = min beta (max (max x y) z) := by
  simp only [inf_sup_left, inf_left_idem]

/-- Clipping one inf component at alpha does not change the sup with
alpha. -/
lemma max_min_absorb (alpha x y z : E) :
    max alpha (min (min x (max alpha y)) z) = max alpha (min (min x y) z) := by
  simp only [sup_inf_left, sup_left_idem]

end GameAI

end Othello

namespace Othello

namespace GameAI

/-- The plain maximizing loop splits off its seed. -/
lemma maxLoopP_eq_max {child : Move → E} (L : List Move) (v : E) :
    maxLoopP child L v = max v (maxLoopP child L ⊥) := by
  conv_lhs => rw [show v = max v ⊥ from (max_eq_left bot_le).symm]
  exact maxLoopP_max_out L v ⊥

/-- The plain minimizing loop splits off its seed. -/
lemma minLoopP_eq_min {child : Move → E} (L : List Move) (v : E) :
    minLoopP child L v = min v (minLoopP child L ⊤) := by
  conv_lhs => rw [show v = min v ⊤ from (min_eq_left le_top).symm]
  exact minLoopP_min_out L v ⊤

/-- Fail-soft upper bound of the pruned maximizing loop: it never exceeds
max alpha of the plain loop value. -/
lemma maxLoop_le_plain {child : Move → E → E} {pv : Move → E} {beta : E} :
    ∀ (L : List Move) (v alpha : E), alpha < beta →
      (∀ m ∈ L, ∀ a, a < beta → child m a ≤ max a (pv m)) →
      maxLoop child beta L v alpha ≤ max alpha (maxLoopP pv L v) := by
  intro L
  induction L with
  | nil =>
    intro v alpha hab h
    exact le_max_right _ _
  | cons m rest ih =>
    intro v alpha hab h
    have hc : child m alpha ≤ max alpha (pv m) :=
      h m (List.mem_cons_self m rest) alpha hab
    have hv2 : max v (child m alpha) ≤ max alpha (max v (pv m)) := by
      calc max v (child m alpha) ≤ max v (max alpha (pv m)) := max_le_max le_rfl hc
        _ = max alpha (max v (pv m)) := max_left_comm v alpha (pv m)
    simp only [maxLoop, maxLoopP]
    split
    next hbreak =>
      exact le_trans hv2 (max_le_max le_rfl (maxLoopP_le_init rest _))
    next hbreak =>
      have hab2 : max alpha (max v (child m alpha)) < beta := not_le.mp hbreak
      have hrec := ih (max v (child m alpha)) (max alpha (max v (child m alpha))) hab2
        (fun m2 hm2 a ha => h m2 (List.mem_cons_of_mem m hm2) a ha)
      refine le_trans hrec (max_le ?_ ?_)
      · refine le_trans (max_le_max le_rfl hv2) ?_
        rw [← max_assoc, max_self]
        exact max_le_max le_rfl (maxLoopP_le_init rest _)
      · refine le_trans (maxLoopP_mono rest hv2) ?_
        rw [maxLoopP_max_out]

/-- Fail-soft lower bound of the pruned maximizing loop: it is at least
the plain loop value clipped at beta. -/
lemma maxLoop_ge_plain {child : Move → E → E} {pv : Move → E} {beta : E} :
    ∀ (L : List Move) (v alpha : E), alpha < beta →
      (∀ m ∈ L, ∀ a, a < beta → min beta (pv m) ≤ child m a) →
      min beta (maxLoopP pv L v) ≤ maxLoop child beta L v alpha := by
  intro L
  induction L with
  | nil =>
    intro v alpha hab h
    exact min_le_right _ _
  | cons m rest ih =>
    intro v alpha hab h
    have hc : min beta (pv m) ≤ child m alpha := h m (List.mem_cons_self m rest) alpha hab
    have hv2 : max v (min beta (pv m)) ≤ max v (child m alpha) := max_le_max le_rfl hc
    simp only [maxLoop, maxLoopP]
    split
    next hbreak =>
      have hbv : beta ≤ max v (child m alpha) := by
        by_contra h2
        exact absurd hbreak (not_le.mpr (max_lt hab (not_le.mp h2)))
      exact le_trans (min_le_left _ _) hbv
    next hbreak =>
      have hab2 : max alpha (max v (child m alpha)) < beta := not_le.mp hbreak
      have hrec := ih (max v (child m alpha)) (max alpha (max v (child m alpha))) hab2
        (fun m2 hm2 a ha => h m2 (List.mem_cons_of_mem m hm2) a ha)
      refine le_trans (le_min (min_le_left _ _) ?_) hrec
      have hd1 : min beta (maxLoopP pv rest (max v (pv m)))
          ≤ maxLoopP pv rest (max v (min beta (pv m))) := by
        rw [maxLoopP_eq_max rest (max v (pv m)),
          maxLoopP_eq_max rest (max v (min beta (pv m)))]
        rw [inf_sup_left, inf_sup_left]
        exact sup_le_sup (sup_le_sup inf_le_right le_rfl) inf_le_right
      exact le_trans hd1 (maxLoopP_mono rest hv2)

/-- Fail-soft upper bound of the pruned minimizing loop. -/
lemma minLoop_le_plain {child : Move → E → E} {pv : Move → E} {alpha : E} :
    ∀ (L : List Move) (v beta : E), alpha < beta →
      (∀ m ∈ L, ∀ bb, alpha < bb → child m bb ≤ max alpha (pv m)) →
      minLoop child alpha L v beta ≤ max alpha (minLoopP pv L v) := by
  intro L
  induction L with
  | nil =>
    intro v beta hab h
    exact le_max_right _ _
  | cons m rest ih =>
    intro v beta hab h
    have hc : child m beta ≤ max alpha (pv m) := h m (List.mem_cons_self m rest) beta hab
    have hv2 : min v (child m beta) ≤ min v (max alpha (pv m)) := min_le_min le_rfl hc
    simp only [minLoop, minLoopP]
    split
    next hbreak =>
      have hva : min v (child m beta) ≤ alpha := by
        by_contra h2
        exact absurd hbreak (not_le.mpr (lt_min hab (not_le.mp h2)))
      exact le_trans hva (le_max_left _ _)
    next hbreak =>
      have hab2 : alpha < min beta (min v (child m beta)) := not_le.mp hbreak
      have hrec := ih (min v (child m beta)) (min beta (min v (child m beta))) hab2
        (fun m2 hm2 bb hbb => h m2 (List.mem_cons_of_mem m hm2) bb hbb)
      refine le_trans hrec (max_le (le_max_left _ _) ?_)
      have h1 : minLoopP pv rest (min v (child m beta))
          ≤ minLoopP pv rest (min v (max alpha (pv m))) := minLoopP_mono rest hv2
      have h2 : minLoopP pv rest (min v (max alpha (pv m)))
          ≤ max alpha (minLoopP pv rest (min v (pv m))) := by
        rw [minLoopP_eq_min rest (min v (max alpha (pv m))),
          minLoopP_eq_min rest (min v (pv m))]
        rw [sup_inf_left, sup_inf_left]
        exact le_inf
          (le_inf (le_trans inf_le_left (le_trans inf_le_left le_sup_right))
            (le_trans inf_le_left inf_le_right))
          (le_trans inf_le_right le_sup_right)
      exact le_trans h1 h2

/-- Fail-soft lower bound of the pruned minimizing loop. -/
lemma minLoop_ge_plain {child : Move → E → E} {pv : Move → E} {alpha : E} :
    ∀ (L : List Move) (v beta : E), alpha < beta →
      (∀ m ∈ L, ∀ bb, alpha < bb → min bb (pv m) ≤ child m bb) →
      min beta (minLoopP pv L v) ≤ minLoop child alpha L v beta := by
  intro L
  induction L with
  | nil =>
    intro v beta hab h
    exact min_le_right _ _
  | cons m rest ih =>
    intro v beta hab h
    have hc : min beta (pv m) ≤ child m beta := h m (List.mem_cons_self m rest) beta hab
    have hv2 : min beta (min v (pv m)) ≤ min v (child m beta) := by
      calc min beta (min v (pv m)) = min v (min beta (pv m)) := min_left_comm beta v (pv m)
        _ ≤ min v (child m beta) := min_le_min le_rfl hc
    simp only [minLoop, minLoopP]
    split
    next hbreak =>
      exact le_trans (min_le_min le_rfl (minLoopP_le_init rest _)) hv2
    next hbreak =>
      have hab2 : alpha < min beta (min v (child m beta)) := not_le.mp hbreak
      have hrec := ih (min v (child m beta)) (min beta (min v (child m beta))) hab2
        (fun m2 hm2 bb hbb => h m2 (List.mem_cons_of_mem m hm2) bb hbb)
      refine le_trans (le_min (le_min (min_le_left _ _) ?_) ?_) hrec
      · exact le_trans (min_le_min le_rfl (minLoopP_le_init rest _)) hv2
      · rw [← minLoopP_min_out rest beta (min v (pv m))]
        exact minLoopP_mono rest hv2

end GameAI

end Othello

namespace Othello

namespace GameAI

/-- Leaf equation of the plain search. -/
lemma minimaxPlain_leaf {b : Board} {depth : Nat} {root t : Player}
    (h : depth = 0 ∨ isTerminal b) :
    minimaxPlain b depth root t = evE b root := by
  unfold minimaxPlain
  rw [show 2 * depth + 2 = (2 * depth + 1) + 1 from rfl]
  simp only [minimaxPlainF]
  rw [if_pos h]

/-- Double-pass equation of the plain search. -/
lemma minimaxPlain_pass_leaf {b : Board} {depth : Nat} {root t : Player}
    (hmv : getValidMoves b t = []) (hop : getValidMoves b (opponentOf t) = []) :
    minimaxPlain b depth root t = evE b root := by
  unfold minimaxPlain
  rw [show 2 * depth + 2 = (2 * depth + 1) + 1 from rfl]
  simp only [minimaxPlainF]
  by_cases hleaf : depth = 0 ∨ isTerminal b
  · rw [if_pos hleaf]
  · rw [if_neg hleaf, if_pos hmv, if_pos hop]

/-- Pass equation of the plain search. -/
lemma minimaxPlain_pass {b : Board} {depth : Nat} {root t : Player}
    (hleaf : ¬(depth = 0 ∨ isTerminal b)) (hmv : getValidMoves b t = [])
    (hop : getValidMoves b (opponentOf t) ≠ []) :
    minimaxPlain b depth root t = minimaxPlain b depth root (opponentOf t) := by
  unfold minimaxPlain
  rw [show 2 * depth + 2 = (2 * depth + 1) + 1 from rfl]
  simp only [minimaxPlainF]
  rw [if_neg hleaf, if_pos hmv, if_neg hop]
  have hmuO : muNode b depth (opponentOf t) = 2 * depth := by
    unfold muNode
    rw [if_neg hop]
    omega
  exact minimaxPlainF_fuel (2 * depth + 1) ((2 * depth + 1) + 1) b depth root (opponentOf t)
    (by omega) (by omega)

/-- Maximizing-node equation of the plain search. -/
lemma minimaxPlain_max {b : Board} {depth : Nat} {root t : Player}
    (hleaf : ¬(depth = 0 ∨ isTerminal b)) (hmv : getValidMoves b t ≠ [])
    (hroot : t = root) :
    minimaxPlain b depth root t
      = maxLoopP
          (fun m => minimaxPlain (applyMove b m.1 m.2 t) (depth - 1) root (opponentOf t))
          (getValidMoves b t) ⊥ := by
  unfold minimaxPlain
  rw [show 2 * depth + 2 = (2 * depth + 1) + 1 from rfl]
  simp only [minimaxPlainF]
  rw [if_neg hleaf, if_neg hmv, if_pos hroot]
  apply maxLoopP_congr
  intro m hm
  have hc := muNode_le (applyMove b m.1 m.2 t) (depth - 1) (opponentOf t)
  have hd : depth ≠ 0 := fun h2 => hleaf (Or.inl h2)
  exact minimaxPlainF_fuel (2 * depth + 1) (2 * (depth - 1) + 2) _ (depth - 1) root
    (opponentOf t) (by omega) (by omega)

/-- Minimizing-node equation of the plain search. -/
lemma minimaxPlain_min {b : Board} {depth : Nat} {root t : Player}
    (hleaf : ¬(depth = 0 ∨ isTerminal b)) (hmv : getValidMoves b t ≠ [])
    (hroot : t ≠ root) :
    minimaxPlain b depth root t
      = minLoopP
          (fun m => minimaxPlain (applyMove b m.1 m.2 t) (depth - 1) root (opponentOf t))
          (getValidMoves b t) ⊤ := by
  unfold minimaxPlain
  rw [show 2 * depth + 2 = (2 * depth + 1) + 1 from rfl]
  simp only [minimaxPlainF]
  rw [if_neg hleaf, if_neg hmv, if_neg hroot]
  apply minLoopP_congr
  intro m hm
  have hc := muNode_le (applyMove b m.1 m.2 t) (depth - 1) (opponentOf t)
  have hd : depth ≠ 0 := fun h2 => hleaf (Or.inl h2)
  exact minimaxPlainF_fuel (2 * depth + 1) (2 * (depth - 1) + 2) _ (depth - 1) root
    (opponentOf t) (by omega) (by omega)

/-- Knuth-Moore style bounds: with a valid window, the pruned search value
lies between the plain value clipped at beta and at alpha; in particular
inside the window both coincide. -/
lemma abBounds :
    ∀ (fuel : Nat) (b : Board) (depth : Nat) (alpha beta : E) (root t : Player),
      muNode b depth t < fuel → alpha < beta →
      min beta (minimaxPlain b depth root t) ≤ minimaxF fuel b depth alpha beta root t ∧
        minimaxF fuel b depth alpha beta root t ≤ max alpha (minimaxPlain b depth root t) := by
  intro fuel
  induction fuel using Nat.strong_induction_on with
  | _ fuel ih =>
    intro b depth alpha beta root t hf hab
    obtain ⟨f1, rfl⟩ : ∃ f1, fuel = f1 + 1 := ⟨fuel - 1, by omega⟩
    simp only [minimaxF]
    by_cases hleaf : depth = 0 ∨ isTerminal b
    · rw [if_pos hleaf, minimaxPlain_leaf hleaf]
      exact ⟨min_le_right _ _, le_max_right _ _⟩
    · rw [if_neg hleaf]
      have hd : depth ≠ 0 := fun h2 => hleaf (Or.inl h2)
      by_cases hmv : getValidMoves b t = []
      · rw [if_pos hmv]
        by_cases hop : getValidMoves b (opponentOf t) = []
        · rw [if_pos hop, minimaxPlain_pass_leaf hmv hop]
          exact ⟨min_le_right _ _, le_max_right _ _⟩
        · rw [if_neg hop, minimaxPlain_pass hleaf hmv hop]
          have hmuT : muNode b depth t = 2 * depth + 1 := by
            unfold muNode
            rw [if_pos hmv]
          have hmuO : muNode b depth (opponentOf t) = 2 * depth := by
            unfold muNode
            rw [if_neg hop]
            omega
          exact ih f1 (by omega) b depth alpha beta root (opponentOf t) (by omega) hab
      · rw [if_neg hmv]
        have hmuT : muNode b depth t = 2 * depth := by
          unfold muNode
          rw [if_neg hmv]
          omega
        by_cases hroot : t = root
        · rw [if_pos hroot, minimaxPlain_max hleaf hmv hroot]
          constructor
          · refine maxLoop_ge_plain _ _ _ hab ?_
            intro m hm a ha
            have hc := muNode_le (applyMove b m.1 m.2 t) (depth - 1) (opponentOf t)
            exact (ih f1 (by omega) _ (depth - 1) a beta root (opponentOf t)
              (by omega) ha).1
          · refine maxLoop_le_plain _ _ _ hab ?_
            intro m hm a ha
            have hc := muNode_le (applyMove b m.1 m.2 t) (depth - 1) (opponentOf t)
            exact (ih f1 (by omega) _ (depth - 1) a beta root (opponentOf t)
              (by omega) ha).2
        · rw [if_neg hroot, minimaxPlain_min hleaf hmv hroot]
          constructor
          · refine minLoop_ge_plain _ _ _ hab ?_
            intro m hm bb hbb
            have hc := muNode_le (applyMove b m.1 m.2 t) (depth - 1) (opponentOf t)
            exact (ih f1 (by omega) _ (depth - 1) alpha bb root (opponentOf t)
              (by omega) hbb).1
          · refine minLoop_le_plain _ _ _ hab ?_
            intro m hm bb hbb
            have hc := muNode_le (applyMove b m.1 m.2 t) (depth - 1) (opponentOf t)
            exact (ih f1 (by omega) _ (depth - 1) alpha bb root (opponentOf t)
              (by omega) hbb).2

end GameAI

end Othello

namespace Othello

namespace GameAI

/-- With exact child bounds, the pruned root loop selects the same move as
the plain root loop: the alpha threaded at the root always equals the
running best score, a child whose plain value beats it returns that value
exactly, and a child at or below it cannot trigger the strictly-greater
update. -/
lemma rootLoop_eq {child : Move → E → E} {pv : Move → E} :
    ∀ (L : List Move) (bs : E) (best : Option Move),
      bs < ⊤ →
      (∀ m ∈ L, isFin (pv m) ∧ ∀ a, a < ⊤ →
        min ⊤ (pv m) ≤ child m a ∧ child m a ≤ max a (pv m)) →
      rootLoop child L bs best bs = rootLoopP pv L bs best := by
  intro L
  induction L with
  | nil =>
    intro bs best hbs h
    rfl
  | cons m rest ih =>
    intro bs best hbs h
    obtain ⟨⟨z, hz⟩, hbounds⟩ := h m (List.mem_cons_self m rest)
    obtain ⟨h1, h2⟩ := hbounds bs hbs
    rw [min_eq_right le_top] at h1
    simp only [rootLoop, rootLoopP]
    by_cases hcp : bs < pv m
    · have hceq : child m bs = pv m := by
        refine le_antisymm ?_ h1
        calc child m bs ≤ max bs (pv m) := h2
          _ = pv m := max_eq_right hcp.le
      rw [hceq]
      simp only [if_pos hcp]
      rw [max_eq_right hcp.le]
      have hfin : pv m < ⊤ := by
        rw [hz]
        exact toE_lt_top z
      rw [if_neg (not_le.mpr hfin)]
      exact ih (pv m) (some m) hfin (fun m2 hm2 => h m2 (List.mem_cons_of_mem m hm2))
    · have hc2 : ¬ bs < child m bs := by
        intro hlt
        have hle : child m bs ≤ bs := by
          calc child m bs ≤ max bs (pv m) := h2
            _ = bs := max_eq_left (not_lt.mp hcp)
        exact absurd hlt (not_lt.mpr hle)
      simp only [if_neg hc2, if_neg hcp]
      rw [max_self]
      rw [if_neg (not_le.mpr hbs)]
      exact ih bs best hbs (fun m2 hm2 => h m2 (List.mem_cons_of_mem m hm2))

/-- C2: for every board, root side and depth, the alpha-beta pruned
minimaxDecision chooses exactly the move of plain minimax with no pruning
over the same move enumeration order and the same strictly-greater,
first-seen tie-break: pruning never changes the chosen move. -/
theorem C2_alpha_beta_decision_eq_plain (b : Board) (p : Player) (depth : Nat) :
    minimaxDecision b p depth = minimaxDecisionPlain b p depth := by
  simp only [minimaxDecision, minimaxDecisionPlain]
  by_cases hmv : getValidMoves b p = []
  · rw [if_pos hmv, if_pos hmv]
  · rw [if_neg hmv, if_neg hmv]
    refine rootLoop_eq (getValidMoves b p) ⊥ none bot_lt_top ?_
    intro m hm
    constructor
    · exact minimaxPlainF_fin _ _ _ _ _
    · intro a ha
      have hc := muNode_le (applyMove b m.1 m.2 p) (depth - 1) (opponentOf p)
      exact abBounds (2 * (depth - 1) + 2) (applyMove b m.1 m.2 p) (depth - 1) a ⊤ p
        (opponentOf p) (by omega) ha

end GameAI

end Othello

namespace Othello

namespace GameAI

/-- Weighted plus/minus fold over a cell list. -/
lemma foldl_pm_count {α : Type} (P Q : α → Prop) [DecidablePred P] [DecidablePred Q]
    (hdis : ∀ x, ¬(P x ∧ Q x)) (w : Int) :
    ∀ (L : List α) (init : Int),
      L.foldl (fun sc x => if P x then sc + w else if Q x then sc - w else sc) init
        = init + w * (L.countP (fun x => decide (P x)) : Int)
          - w * (L.countP (fun x => decide (Q x)) : Int) := by
  intro L
  induction L with
  | nil =>
    intro init
    simp
  | cons x rest ih =>
    intro init
    simp only [List.foldl_cons]
    by_cases hp : P x
    · have hq : ¬ Q x := fun hq => hdis x ⟨hp, hq⟩
      have e1 : List.countP (fun y => decide (P y)) (x :: rest)
          = List.countP (fun y => decide (P y)) rest + 1 := by
        simp [List.countP_cons, hp]
      have e2 : List.countP (fun y => decide (Q y)) (x :: rest)
          = List.countP (fun y => decide (Q y)) rest := by
        simp [List.countP_cons, hq]
      rw [if_pos hp, ih, e1, e2]
      push_cast
      ring
    · rw [if_neg hp]
      have e1 : List.countP (fun y => decide (P y)) (x :: rest)
          = List.countP (fun y => decide (P y)) rest := by
        simp [List.countP_cons, hp]
      by_cases hq : Q x
      · have e2 : List.countP (fun y => decide (Q y)) (x :: rest)
            = List.countP (fun y => decide (Q y)) rest + 1 := by
          simp [List.countP_cons, hq]
        rw [if_pos hq, ih, e1, e2]
        push_cast
        ring
      · have e2 : List.countP (fun y => decide (Q y)) (x :: rest)
            = List.countP (fun y => decide (Q y)) rest := by
          simp [List.countP_cons, hq]
        rw [if_neg hq, ih, e1, e2]

/-- Weighted minus/plus fold over a cell list. -/
lemma foldl_mp_count {α : Type} (P Q : α → Prop) [DecidablePred P] [DecidablePred Q]
    (hdis : ∀ x, ¬(P x ∧ Q x)) (w : Int) :
    ∀ (L : List α) (init : Int),
      L.foldl (fun sc x => if P x then sc - w else if Q x then sc + w else sc) init
        = init - w * (L.countP (fun x => decide (P x)) : Int)
          + w * (L.countP (fun x => decide (Q x)) : Int) := by
  intro L
  induction L with
  | nil =>
    intro init
    simp
  | cons x rest ih =>
    intro init
    simp only [List.foldl_cons]
    by_cases hp : P x
    · have hq : ¬ Q x := fun hq => hdis x ⟨hp, hq⟩
      have e1 : List.countP (fun y => decide (P y)) (x :: rest)
          = List.countP (fun y => decide (P y)) rest + 1 := by
        simp [List.countP_cons, hp]
      have e2 : List.countP (fun y => decide (Q y)) (x :: rest)
          = List.countP (fun y => decide (Q y)) rest := by
        simp [List.countP_cons, hq]
      rw [if_pos hp, ih, e1, e2]
      push_cast
      ring
    · rw [if_neg hp]
      have e1 : List.countP (fun y => decide (P y)) (x :: rest)
          = List.countP (fun y => decide (P y)) rest := by
        simp [List.countP_cons, hp]
      by_cases hq : Q x
      · have e2 : List.countP (fun y => decide (Q y)) (x :: rest)
            = List.countP (fun y => decide (Q y)) rest + 1 := by
          simp [List.countP_cons, hq]
        rw [if_pos hq, ih, e1, e2]
        push_cast
        ring
      · have e2 : List.countP (fun y => decide (Q y)) (x :: rest)
            = List.countP (fun y => decide (Q y)) rest := by
          simp [List.countP_cons, hq]
        rw [if_neg hq, ih, e1, e2]

/-- The fused three-way counting scan splits into three countP values. -/
lemma foldl_count3 {α : Type} (P Q : α → Prop) [DecidablePred P] [DecidablePred Q]
    (hdis : ∀ x, ¬(P x ∧ Q x)) :
    ∀ (L : List α) (acc : Int × Int × Int),
      L.foldl (fun a x =>
        if P x then (a.1 + 1, a.2.1, a.2.2)
        else if Q x then (a.1, a.2.1 + 1, a.2.2)
        else (a.1, a.2.1, a.2.2 + 1)) acc
      = (acc.1 + (L.countP (fun x => decide (P x)) : Int),
          acc.2.1 + (L.countP (fun x => decide (Q x)) : Int),
          acc.2.2 + (L.countP (fun x => decide (¬ P x ∧ ¬ Q x)) : Int)) := by
  intro L
  induction L with
  | nil =>
    intro acc
    simp
  | cons x rest ih =>
    intro acc
    simp only [List.foldl_cons]
    by_cases hp : P x
    · have hq : ¬ Q x := fun hq => hdis x ⟨hp, hq⟩
      have e1 : List.countP (fun y => decide (P y)) (x :: rest)
          = List.countP (fun y => decide (P y)) rest + 1 := by
        simp [List.countP_cons, hp]
      have e2 : List.countP (fun y => decide (Q y)) (x :: rest)
          = List.countP (fun y => decide (Q y)) rest := by
        simp [List.countP_cons, hq]
      have e3 : List.countP (fun y => decide (¬ P y ∧ ¬ Q y)) (x :: rest)
          = List.countP (fun y => decide (¬ P y ∧ ¬ Q y)) rest := by
        simp [List.countP_cons, hp]
      rw [if_pos hp, ih, e1, e2, e3, Prod.ext_iff, Prod.ext_iff]
      refine ⟨?_, ?_, ?_⟩ <;> simp <;> omega
    · rw [if_neg hp]
      have e1 : List.countP (fun y => decide (P y)) (x :: rest)
          = List.countP (fun y => decide (P y)) rest := by
        simp [List.countP_cons, hp]
      by_cases hq : Q x
      · have e2 : List.countP (fun y => decide (Q y)) (x :: rest)
            = List.countP (fun y => decide (Q y)) rest + 1 := by
          simp [List.countP_cons, hq]
        have e3 : List.countP (fun y => decide (¬ P y ∧ ¬ Q y)) (x :: rest)
            = List.countP (fun y => decide (¬ P y ∧ ¬ Q y)) rest := by
          simp [List.countP_cons, hq]
        rw [if_pos hq, ih, e1, e2, e3, Prod.ext_iff, Prod.ext_iff]
        refine ⟨?_, ?_, ?_⟩ <;> simp <;> omega
      · have e2 : List.countP (fun y => decide (Q y)) (x :: rest)
            = List.countP (fun y => decide (Q y)) rest := by
          simp [List.countP_cons, hq]
        have e3 : List.countP (fun y => decide (¬ P y ∧ ¬ Q y)) (x :: rest)
            = List.countP (fun y => decide (¬ P y ∧ ¬ Q y)) rest + 1 := by
          simp [List.countP_cons, hp, hq]
        rw [if_neg hq, ih, e1, e2, e3, Prod.ext_iff, Prod.ext_iff]
        refine ⟨?_, ?_, ?_⟩ <;> simp <;> omega

/-- Grid membership gives in-range coordinates. -/
lemma mem_grid {n : Nat} {rc : Nat × Nat} (h : rc ∈ grid n) : rc.1 < n ∧ rc.2 < n := by
  unfold grid at h
  simp only [List.mem_flatMap, List.mem_map, List.mem_range] at h
  obtain ⟨r, hr, c, hc, rfl⟩ := h
  exact ⟨hr, hc⟩

/-- On a square board, every in-range cell is defined. -/
lemma cellAt_some_of_square {b : Board} (hwf : SquareBoard b) {r c : Nat}
    (hr : r < b.length) (hc : c < b.length) :
    ∃ w, cellAt b (r : Int) (c : Int) = some w := by
  obtain ⟨rowArr, hrow⟩ := @jsGet_of_lt _ b (r : Int) (by omega) (by exact_mod_cast hr)
  have hrlen : rowArr.length = b.length := hwf rowArr (jsGet_mem hrow)
  obtain ⟨w, hcol⟩ := @jsGet_of_lt _ rowArr (c : Int) (by omega)
    (by rw [hrlen]; exact_mod_cast hc)
  refine ⟨w, ?_⟩
  unfold cellAt
  rw [hrow]
  exact hcol

/-- A real side differs from its opponent. -/
lemma opponentOf_ne_self {p : Player} (hp : p = Player.player ∨ p = Player.ia) :
    opponentOf p ≠ p := by
  rcases hp with rfl | rfl <;> decide

end GameAI

end Othello

namespace Othello

namespace GameAI

/-- C4: evaluate(board, perspective) equals exactly
10*mobility + 5*edgeScore + (50/30)*cornerScore
+ 2*endgameFactor*pieceDiff - xPenalty, with the components as the claim
describes them (the computation is exact integer arithmetic, so the
rational reading is exact). -/
theorem C4_evaluate_formula (b : Board) (p : Player)
    (hp : p = Player.player ∨ p = Player.ia) (hwf : SquareBoard b) :
    (evaluate b p : Rat)
      = 10 * (specMobility b p : Rat) + 5 * (specEdgeScore b p : Rat)
        + (50 / 30) * (specCornerScore b p : Rat)
        + 2 * (specEndgameFactor b : Rat) * (specPieceDiff b p : Rat)
        - (specXPenalty b p : Rat) := by
  have hne : opponentOf p ≠ p := opponentOf_ne_self hp
  have hdis : ∀ rc : Nat × Nat,
      ¬(cellAt b (rc.1 : Int) (rc.2 : Int) = some p ∧
        cellAt b (rc.1 : Int) (rc.2 : Int) = some (opponentOf p)) := by
    rintro rc ⟨h1, h2⟩
    rw [h1] at h2
    exact hne (Option.some.inj h2).symm
  have hdisI : ∀ rc : Int × Int,
      ¬(cellAt b rc.1 rc.2 = some p ∧ cellAt b rc.1 rc.2 = some (opponentOf p)) := by
    rintro rc ⟨h1, h2⟩
    rw [h1] at h2
    exact hne (Option.some.inj h2).symm
  have hcongr : List.countP
      (fun rc : Nat × Nat => decide (¬ cellAt b (rc.1 : Int) (rc.2 : Int) = some p ∧
        ¬ cellAt b (rc.1 : Int) (rc.2 : Int) = some (opponentOf p))) (grid b.length)
      = List.countP (fun rc : Nat × Nat =>
          decide (cellAt b (rc.1 : Int) (rc.2 : Int) = some Player.blank))
        (grid b.length) := by
    apply List.countP_congr
    intro rc hrc
    obtain ⟨hr, hc⟩ := mem_grid hrc
    obtain ⟨w, hw⟩ := cellAt_some_of_square hwf hr hc
    rw [hw]
    rcases hp with rfl | rfl <;> cases w <;> simp [opponentOf]
  have hInt : evaluate b p
      = 10 * specMobility b p + 5 * specEdgeScore b p
        + (50 * (countOn b (cornerCells b.length) p : Int)
          - 50 * (countOn b (cornerCells b.length) (opponentOf p) : Int))
        + 2 * specEndgameFactor b * specPieceDiff b p - specXPenalty b p := by
    simp only [evaluate]
    rw [foldl_count3 _ _ hdis (grid b.length) ((0, 0, 0) : Int × Int × Int)]
    rw [foldl_pm_count _ _ hdisI 30 (cornerCells b.length) 0]
    rw [foldl_pm_count _ _ hdisI 4 (edgeCells b.length) 0]
    rw [foldl_mp_count _ _ hdisI 8 (xCells b.length) 0]
    simp only [hcongr, specMobility, specEdgeScore, specPieceDiff, specXPenalty,
      specEndgameFactor, specEmpties, countOn, countGrid]
    have hcond : ((0 : Int) + (List.countP (fun rc : Nat × Nat =>
        decide (cellAt b (rc.1 : Int) (rc.2 : Int) = some Player.blank))
        (grid b.length) : Int) ≤ 12)
        ↔ (List.countP (fun rc : Nat × Nat =>
          decide (cellAt b (rc.1 : Int) (rc.2 : Int) = some Player.blank))
          (grid b.length) ≤ 12) := by
      omega
    rw [if_congr hcond rfl rfl]
    have hdiv : (50 * ((0 : Int)
        + 30 * (List.countP (fun rc : Int × Int =>
            decide (cellAt b rc.1 rc.2 = some p)) (cornerCells b.length) : Int)
        - 30 * (List.countP (fun rc : Int × Int =>
            decide (cellAt b rc.1 rc.2 = some (opponentOf p)))
            (cornerCells b.length) : Int))) / 30
        = 50 * (List.countP (fun rc : Int × Int =>
            decide (cellAt b rc.1 rc.2 = some p)) (cornerCells b.length) : Int)
          - 50 * (List.countP (fun rc : Int × Int =>
            decide (cellAt b rc.1 rc.2 = some (opponentOf p)))
            (cornerCells b.length) : Int) := by
      rw [show (50 * ((0 : Int)
          + 30 * (List.countP (fun rc : Int × Int =>
              decide (cellAt b rc.1 rc.2 = some p)) (cornerCells b.length) : Int)
          - 30 * (List.countP (fun rc : Int × Int =>
              decide (cellAt b rc.1 rc.2 = some (opponentOf p)))
              (cornerCells b.length) : Int)))
          = 30 * (50 * (List.countP (fun rc : Int × Int =>
              decide (cellAt b rc.1 rc.2 = some p)) (cornerCells b.length) : Int)
            - 50 * (List.countP (fun rc : Int × Int =>
              decide (cellAt b rc.1 rc.2 = some (opponentOf p)))
              (cornerCells b.length) : Int)) from by ring]
      exact Int.mul_ediv_cancel_left _ (by norm_num)
    rw [hdiv]
    ring
  rw [hInt]
  simp only [specCornerScore, countOn]
  push_cast
  ring

end GameAI

end Othello

namespace Othello

namespace GameAI

/-- Witness for C4 at the size-4 start board from the player
perspective. -/
theorem C4_witness :
    (Player.player = Player.player ∨ Player.player = Player.ia) ∧
      SquareBoard GameLogic.startState4.board ∧
      (evaluate GameLogic.startState4.board Player.player : Rat)
        = 10 * (specMobility GameLogic.startState4.board Player.player : Rat)
          + 5 * (specEdgeScore GameLogic.startState4.board Player.player : Rat)
          + (50 / 30) * (specCornerScore GameLogic.startState4.board Player.player : Rat)
          + 2 * (specEndgameFactor GameLogic.startState4.board : Rat)
            * (specPieceDiff GameLogic.startState4.board Player.player : Rat)
          - (specXPenalty GameLogic.startState4.board Player.player : Rat) :=
  ⟨Or.inl rfl, by unfold SquareBoard; decide,
    C4_evaluate_formula GameLogic.startState4.board Player.player (Or.inl rfl)
      (by unfold SquareBoard; decide)⟩

end GameAI

end Othello
